import Mathlib

set_option maxHeartbeats 1000000

namespace TextEditor

/-! Shallow embedding of `crates/rimui/src/text_editor.rs`.

The Rust buffer is a `String`: UTF-8 bytes addressed by byte offset.  We model
it as a list of bytes.  The cursor is a `u32`; we model it as a `Nat` and make
the 32-bit wrap explicit (`% U32M`, `u32Sub`, `u32AsI32`, `i32Wrap`) at every
place where the Rust code can overflow.  Rust panics (out-of-bounds indexing,
slicing off a char boundary, arithmetic that the std library checks) are
modeled by `Option`: `none` is a panic. -/

/-- Bytes of a Rust `String` buffer. -/
abbrev Buffer := List Nat

/-- 2^32, the modulus of `u32` arithmetic. -/
def U32M : Nat := 4294967296

/-- 2^31. -/
def I32H : Nat := 2147483648

/-- Wrapping `u32` subtraction (release-mode semantics). -/
def u32Sub (a b : Nat) : Nat := (a % U32M + U32M - b % U32M) % U32M

/-- Reinterpretation of a `u32` (or truncated `usize`) value as an `i32`. -/
def u32AsI32 (n : Nat) : Int :=
  if n % U32M < I32H then ((n % U32M : Nat) : Int) else ((n % U32M : Nat) : Int) - (U32M : Int)

/-- Wrap an unbounded integer into the `i32` range (release-mode overflow). -/
def i32Wrap (x : Int) : Int := (x + (I32H : Int)) % (U32M : Int) - (I32H : Int)

/-- Cast of an `i32` value back to `u32`. -/
def i32AsU32 (x : Int) : Nat := (x % (U32M : Int)).toNat

/-- Rust `str::is_char_boundary`: true at 0; inside the buffer, true iff the
byte is not a UTF-8 continuation byte; past the end, true only at the length. -/
def isCharBoundary (text : Buffer) (i : Nat) : Bool :=
  if i = 0 then true
  else if i < text.length then decide (text.getD i 0 < 128 ∨ 192 ≤ text.getD i 0)
  else decide (i = text.length)

/-- Byte length of the UTF-8 encoding of a scalar value. -/
def utf8Len (c : Nat) : Nat :=
  if c < 128 then 1 else if c < 2048 then 2 else if c < 65536 then 3 else 4

/-- UTF-8 encoding of a scalar value (what `char::encode_utf8` produces). -/
def utf8Encode (c : Nat) : List Nat :=
  if c < 128 then [c]
  else if c < 2048 then [192 + c / 64, 128 + c % 64]
  else if c < 65536 then [224 + c / 4096, 128 + c / 64 % 64, 128 + c % 64]
  else [240 + c / 262144, 128 + c / 4096 % 64, 128 + c / 64 % 64, 128 + c % 64]

/-- A valid Unicode scalar value (a Rust `char`): below 0x110000, not a surrogate. -/
def validScalarB (c : Nat) : Bool :=
  decide (c < 1114112 ∧ ¬(55296 ≤ c ∧ c < 57344))

/-- A UTF-8 continuation byte. -/
def contB (b : Nat) : Bool := decide (128 ≤ b ∧ b < 192)

/-- Strict decoding of the first scalar value of a byte sequence, as done by
`str::chars` on the (always valid) bytes of a `String`.  Returns the scalar and
the number of bytes it occupies; `none` on malformed input, which is
unreachable for buffers that come from actual Rust strings. -/
def utf8DecodeFirst (l : List Nat) : Option (Nat × Nat) :=
  if l.length = 0 then none
  else if l.getD 0 0 < 128 then some (l.getD 0 0, 1)
  else if l.getD 0 0 < 194 then none
  else if l.getD 0 0 < 224 then
    if 2 ≤ l.length ∧ contB (l.getD 1 0) = true then
      some ((l.getD 0 0 - 192) * 64 + (l.getD 1 0 - 128), 2)
    else none
  else if l.getD 0 0 < 240 then
    if 3 ≤ l.length ∧ contB (l.getD 1 0) = true ∧ contB (l.getD 2 0) = true ∧
        2048 ≤ (l.getD 0 0 - 224) * 4096 + (l.getD 1 0 - 128) * 64 + (l.getD 2 0 - 128) ∧
        ¬(55296 ≤ (l.getD 0 0 - 224) * 4096 + (l.getD 1 0 - 128) * 64 + (l.getD 2 0 - 128) ∧
          (l.getD 0 0 - 224) * 4096 + (l.getD 1 0 - 128) * 64 + (l.getD 2 0 - 128) < 57344) then
      some ((l.getD 0 0 - 224) * 4096 + (l.getD 1 0 - 128) * 64 + (l.getD 2 0 - 128), 3)
    else none
  else if l.getD 0 0 < 245 then
    if 4 ≤ l.length ∧ contB (l.getD 1 0) = true ∧ contB (l.getD 2 0) = true ∧
        contB (l.getD 3 0) = true ∧
        65536 ≤ (l.getD 0 0 - 240) * 262144 + (l.getD 1 0 - 128) * 4096 +
          (l.getD 2 0 - 128) * 64 + (l.getD 3 0 - 128) ∧
        (l.getD 0 0 - 240) * 262144 + (l.getD 1 0 - 128) * 4096 +
          (l.getD 2 0 - 128) * 64 + (l.getD 3 0 - 128) < 1114112 then
      some ((l.getD 0 0 - 240) * 262144 + (l.getD 1 0 - 128) * 4096 +
        (l.getD 2 0 - 128) * 64 + (l.getD 3 0 - 128), 4)
    else none
  else none

theorem utf8Len_pos (c : Nat) : 1 ≤ utf8Len c := by
  unfold utf8Len
  split
  · omega
  · split
    · omega
    · split <;> omega

theorem utf8Encode_length (c : Nat) : (utf8Encode c).length = utf8Len c := by
  unfold utf8Encode utf8Len
  split
  · rfl
  · split
    · rfl
    · split <;> rfl

/-- The encoding of a valid scalar decodes back to it, even with bytes appended. -/
theorem utf8DecodeFirst_encode (c : Nat) (rest : List Nat) (h : validScalarB c = true) :
    utf8DecodeFirst (utf8Encode c ++ rest) = some (c, utf8Len c) := by
  simp only [validScalarB, decide_eq_true_eq] at h
  unfold utf8Encode utf8Len
  by_cases h1 : c < 128
  · simp [utf8DecodeFirst, h1]
  · by_cases h2 : c < 2048
    · simp only [if_neg h1, if_pos h2, List.cons_append, List.nil_append]
      unfold utf8DecodeFirst
      simp only [List.getD_cons_zero, List.getD_cons_succ, List.length_cons]
      have e1 : ¬(192 + c / 64 < 128) := by omega
      have e2 : ¬(192 + c / 64 < 194) := by omega
      have e3 : 192 + c / 64 < 224 := by omega
      have e4 : contB (128 + c % 64) = true := by
        simp only [contB, decide_eq_true_eq]; omega
      have e5 : (192 + c / 64 - 192) * 64 + (128 + c % 64 - 128) = c := by omega
      rw [if_neg (by omega), if_neg e1, if_neg e2, if_pos e3, e5, if_pos ⟨by omega, e4⟩]
    · by_cases h3 : c < 65536
      · simp only [if_neg h1, if_neg h2, if_pos h3, List.cons_append, List.nil_append]
        unfold utf8DecodeFirst
        simp only [List.getD_cons_zero, List.getD_cons_succ, List.length_cons]
        have e1 : ¬(224 + c / 4096 < 128) := by omega
        have e2 : ¬(224 + c / 4096 < 194) := by omega
        have e3 : ¬(224 + c / 4096 < 224) := by omega
        have e4 : 224 + c / 4096 < 240 := by omega
        have e5 : contB (128 + c / 64 % 64) = true := by
          simp only [contB, decide_eq_true_eq]; omega
        have e6 : contB (128 + c % 64) = true := by
          simp only [contB, decide_eq_true_eq]; omega
        have e7 : (224 + c / 4096 - 224) * 4096 + (128 + c / 64 % 64 - 128) * 64 +
            (128 + c % 64 - 128) = c := by omega
        rw [if_neg (by omega), if_neg e1, if_neg e2, if_neg e3, if_pos e4, e7,
          if_pos ⟨by omega, e5, e6, by omega, h.2⟩]
      · have hc : c < 1114112 := h.1
        simp only [if_neg h1, if_neg h2, if_neg h3, List.cons_append, List.nil_append]
        unfold utf8DecodeFirst
        simp only [List.getD_cons_zero, List.getD_cons_succ, List.length_cons]
        have e1 : ¬(240 + c / 262144 < 128) := by omega
        have e2 : ¬(240 + c / 262144 < 194) := by omega
        have e3 : ¬(240 + c / 262144 < 224) := by omega
        have e4 : ¬(240 + c / 262144 < 240) := by omega
        have e5 : 240 + c / 262144 < 245 := by omega
        have e6 : contB (128 + c / 4096 % 64) = true := by
          simp only [contB, decide_eq_true_eq]; omega
        have e7 : contB (128 + c / 64 % 64) = true := by
          simp only [contB, decide_eq_true_eq]; omega
        have e8 : contB (128 + c % 64) = true := by
          simp only [contB, decide_eq_true_eq]; omega
        have e9 : (240 + c / 262144 - 240) * 262144 + (128 + c / 4096 % 64 - 128) * 4096 +
            (128 + c / 64 % 64 - 128) * 64 + (128 + c % 64 - 128) = c := by omega
        rw [if_neg (by omega), if_neg e1, if_neg e2, if_neg e3, if_neg e4, if_pos e5, e9,
          if_pos ⟨by omega, e6, e7, e8, by omega, hc⟩]

theorem take_one_getD (l : List Nat) (h : 1 ≤ l.length) : l.take 1 = [l.getD 0 0] := by
  match l with
  | [] => simp at h
  | a :: t => simp

theorem take_two_getD (l : List Nat) (h : 2 ≤ l.length) :
    l.take 2 = [l.getD 0 0, l.getD 1 0] := by
  match l with
  | [] => simp at h
  | [a] => simp at h
  | a :: b :: t => simp

theorem take_three_getD (l : List Nat) (h : 3 ≤ l.length) :
    l.take 3 = [l.getD 0 0, l.getD 1 0, l.getD 2 0] := by
  match l with
  | [] => simp at h
  | [a] => simp at h
  | [a, b] => simp at h
  | a :: b :: d :: t => simp

theorem take_four_getD (l : List Nat) (h : 4 ≤ l.length) :
    l.take 4 = [l.getD 0 0, l.getD 1 0, l.getD 2 0, l.getD 3 0] := by
  match l with
  | [] => simp at h
  | [a] => simp at h
  | [a, b] => simp at h
  | [a, b, d] => simp at h
  | a :: b :: d :: e :: t => simp

/-- Strict decoding succeeds only on the exact encoding of a valid scalar. -/
theorem utf8DecodeFirst_some (l : List Nat) (c k : Nat)
    (h : utf8DecodeFirst l = some (c, k)) :
    l.take k = utf8Encode c ∧ validScalarB c = true ∧ 1 ≤ k ∧ k ≤ l.length := by
  unfold utf8DecodeFirst at h
  split at h
  · exact absurd h (by simp)
  · split at h
    · simp only [Option.some.injEq, Prod.mk.injEq] at h
      obtain ⟨rfl, rfl⟩ := h
      rename_i hlen h1
      refine ⟨?_, ?_, by omega, by omega⟩
      · rw [take_one_getD l (by omega)]
        unfold utf8Encode
        rw [if_pos h1]
      · simp only [validScalarB, decide_eq_true_eq]; omega
    · split at h
      · exact absurd h (by simp)
      · split at h
        · split at h
          · simp only [Option.some.injEq, Prod.mk.injEq] at h
            obtain ⟨rfl, rfl⟩ := h
            rename_i hlen h1 h2 h3 hcond
            obtain ⟨hl2, hcont⟩ := hcond
            simp only [contB, decide_eq_true_eq] at hcont
            refine ⟨?_, ?_, by omega, by omega⟩
            · rw [take_two_getD l (by omega)]
              have e1 : ¬((l.getD 0 0 - 192) * 64 + (l.getD 1 0 - 128) < 128) := by omega
              have e2 : (l.getD 0 0 - 192) * 64 + (l.getD 1 0 - 128) < 2048 := by omega
              have e3 : ((l.getD 0 0 - 192) * 64 + (l.getD 1 0 - 128)) / 64 =
                  l.getD 0 0 - 192 := by omega
              have e4 : ((l.getD 0 0 - 192) * 64 + (l.getD 1 0 - 128)) % 64 =
                  l.getD 1 0 - 128 := by omega
              unfold utf8Encode
              rw [if_neg e1, if_pos e2, e3, e4]
              simp only [List.cons.injEq, and_true, eq_self_iff_true]
              omega
            · simp only [validScalarB, decide_eq_true_eq]; omega
          · exact absurd h (by simp)
        · split at h
          · split at h
            · simp only [Option.some.injEq, Prod.mk.injEq] at h
              obtain ⟨rfl, rfl⟩ := h
              rename_i hlen h1 h2 h3 h4 hcond
              obtain ⟨hl3, hcont1, hcont2, hlo, hsurr⟩ := hcond
              simp only [contB, decide_eq_true_eq] at hcont1 hcont2
              refine ⟨?_, ?_, by omega, by omega⟩
              · rw [take_three_getD l (by omega)]
                set v := (l.getD 0 0 - 224) * 4096 + (l.getD 1 0 - 128) * 64 +
                  (l.getD 2 0 - 128) with hv
                have e1 : ¬(v < 128) := by omega
                have e2 : ¬(v < 2048) := by omega
                have e3 : v < 65536 := by omega
                have e4 : v / 4096 = l.getD 0 0 - 224 := by omega
                have e5 : v / 64 % 64 = l.getD 1 0 - 128 := by omega
                have e6 : v % 64 = l.getD 2 0 - 128 := by omega
                unfold utf8Encode
                rw [if_neg e1, if_neg e2, if_pos e3, e4, e5, e6]
                simp only [List.cons.injEq, and_true, eq_self_iff_true]
                omega
              · simp only [validScalarB, decide_eq_true_eq]
                exact ⟨by omega, hsurr⟩
            · exact absurd h (by simp)
          · split at h
            · split at h
              · simp only [Option.some.injEq, Prod.mk.injEq] at h
                obtain ⟨rfl, rfl⟩ := h
                rename_i hlen h1 h2 h3 h4 h5 hcond
                obtain ⟨hl4, hcont1, hcont2, hcont3, hlo, hhi⟩ := hcond
                simp only [contB, decide_eq_true_eq] at hcont1 hcont2 hcont3
                refine ⟨?_, ?_, by omega, by omega⟩
                · rw [take_four_getD l (by omega)]
                  set v := (l.getD 0 0 - 240) * 262144 + (l.getD 1 0 - 128) * 4096 +
                    (l.getD 2 0 - 128) * 64 + (l.getD 3 0 - 128) with hv
                  have e1 : ¬(v < 128) := by omega
                  have e2 : ¬(v < 2048) := by omega
                  have e3 : ¬(v < 65536) := by omega
                  have e4 : v / 262144 = l.getD 0 0 - 240 := by omega
                  have e5 : v / 4096 % 64 = l.getD 1 0 - 128 := by omega
                  have e6 : v / 64 % 64 = l.getD 2 0 - 128 := by omega
                  have e7 : v % 64 = l.getD 3 0 - 128 := by omega
                  unfold utf8Encode
                  rw [if_neg e1, if_neg e2, if_neg e3, e4, e5, e6, e7]
                  simp only [List.cons.injEq, and_true, eq_self_iff_true]
                  omega
                · simp only [validScalarB, decide_eq_true_eq]
                  exact ⟨by omega, by omega⟩
              · exact absurd h (by simp)
            · exact absurd h (by simp)

/-- Decoding only looks at the consumed prefix: appending bytes preserves it. -/
theorem utf8DecodeFirst_append (x y : List Nat) (p : Nat × Nat)
    (h : utf8DecodeFirst x = some p) : utf8DecodeFirst (x ++ y) = some p := by
  have hk := utf8DecodeFirst_some x p.1 p.2 (by rw [h])
  obtain ⟨-, -, hk1, hk2⟩ := hk
  have hx0 : ¬x.length = 0 := by omega
  have g0 : (x ++ y).getD 0 0 = x.getD 0 0 := List.getD_append x y 0 0 (by omega)
  unfold utf8DecodeFirst at h ⊢
  rw [if_neg hx0] at h
  rw [if_neg (by simp only [List.length_append]; omega), g0]
  split at h
  · rwa [if_pos (by assumption)]
  · rw [if_neg (by assumption)]
    split at h
    · exact absurd h (by simp)
    · rw [if_neg (by assumption)]
      split at h
      · rw [if_pos (by assumption)]
        split at h
        · rename_i hcond
          have g1 : (x ++ y).getD 1 0 = x.getD 1 0 := List.getD_append x y 0 1 (by omega)
          rw [if_pos (by rw [g1]; refine ⟨by simp only [List.length_append]; omega, hcond.2⟩), g1]
          exact h
        · exact absurd h (by simp)
      · rw [if_neg (by assumption)]
        split at h
        · rw [if_pos (by assumption)]
          split at h
          · rename_i hcond
            obtain ⟨hl3, hc1, hc2, hlo, hsurr⟩ := hcond
            have g1 : (x ++ y).getD 1 0 = x.getD 1 0 := List.getD_append x y 0 1 (by omega)
            have g2 : (x ++ y).getD 2 0 = x.getD 2 0 := List.getD_append x y 0 2 (by omega)
            rw [g1, g2, if_pos ⟨by simp only [List.length_append]; omega, hc1, hc2, hlo, hsurr⟩]
            exact h
          · exact absurd h (by simp)
        · rw [if_neg (by assumption)]
          split at h
          · rw [if_pos (by assumption)]
            split at h
            · rename_i hcond
              obtain ⟨hl4, hc1, hc2, hc3, hlo, hhi⟩ := hcond
              have g1 : (x ++ y).getD 1 0 = x.getD 1 0 := List.getD_append x y 0 1 (by omega)
              have g2 : (x ++ y).getD 2 0 = x.getD 2 0 := List.getD_append x y 0 2 (by omega)
              have g3 : (x ++ y).getD 3 0 = x.getD 3 0 := List.getD_append x y 0 3 (by omega)
              rw [g1, g2, g3, if_pos ⟨by simp only [List.length_append]; omega, hc1, hc2, hc3, hlo, hhi⟩]
              exact h
            · exact absurd h (by simp)
          · exact absurd h (by simp)

/-- Validity of a byte sequence as UTF-8, checked by repeated strict decoding
(the fuel argument only bounds the recursion; `l.length` steps always suffice).
Rust `String` guarantees validity for every buffer the editor is given. -/
def validUtf8BAux : Nat → List Nat → Bool
  | 0, l => l.isEmpty
  | f + 1, l =>
    match utf8DecodeFirst l with
    | some p => validUtf8BAux f (l.drop p.2)
    | none => l.isEmpty

/-- A byte sequence is valid UTF-8: it decodes scalar by scalar to the end. -/
def validUtf8B (l : List Nat) : Bool := validUtf8BAux l.length l

theorem validUtf8BAux_succ_some (f : Nat) (l : List Nat) (p : Nat × Nat)
    (hd : utf8DecodeFirst l = some p) :
    validUtf8BAux (f + 1) l = validUtf8BAux f (l.drop p.2) := by
  show (match utf8DecodeFirst l with
    | some p => validUtf8BAux f (l.drop p.2)
    | none => l.isEmpty) = _
  rw [hd]

theorem validUtf8BAux_succ_none (f : Nat) (l : List Nat)
    (hd : utf8DecodeFirst l = none) : validUtf8BAux (f + 1) l = l.isEmpty := by
  show (match utf8DecodeFirst l with
    | some p => validUtf8BAux f (l.drop p.2)
    | none => l.isEmpty) = _
  rw [hd]

theorem validUtf8BAux_fuel :
    ∀ (f : Nat) (l : List Nat), l.length ≤ f → validUtf8BAux f l = validUtf8B l := by
  intro f
  induction f using Nat.strong_induction_on with
  | _ f ih =>
    intro l hf
    match f with
    | 0 =>
      have hnil : l = [] := List.length_eq_zero.mp (by omega)
      subst hnil; rfl
    | g + 1 =>
      have hB : validUtf8B l = validUtf8BAux l.length l := rfl
      match hd : utf8DecodeFirst l with
      | none =>
        by_cases hnil : l = []
        · subst hnil; rfl
        · obtain ⟨n, hl⟩ : ∃ n, l.length = n + 1 :=
            ⟨l.length - 1, by
              have := List.length_pos.mpr hnil
              omega⟩
          rw [validUtf8BAux_succ_none g l hd, hB, hl, validUtf8BAux_succ_none n l hd]
      | some p =>
        obtain ⟨-, -, hk1, hk2⟩ := utf8DecodeFirst_some l p.1 p.2 (by rw [hd])
        have hdl : (l.drop p.2).length = l.length - p.2 := List.length_drop _ _
        obtain ⟨n, hl⟩ : ∃ n, l.length = n + 1 := ⟨l.length - 1, by omega⟩
        rw [validUtf8BAux_succ_some g l p hd, hB, hl, validUtf8BAux_succ_some n l p hd,
          ih g (by omega) (l.drop p.2) (by omega), ih n (by omega) (l.drop p.2) (by omega)]

/-- One decoding step of the validity check. -/
theorem validUtf8B_step_some (l : List Nat) (p : Nat × Nat)
    (hd : utf8DecodeFirst l = some p) : validUtf8B l = validUtf8B (l.drop p.2) := by
  obtain ⟨-, -, hk1, hk2⟩ := utf8DecodeFirst_some l p.1 p.2 (by rw [hd])
  obtain ⟨n, hl⟩ : ∃ n, l.length = n + 1 := ⟨l.length - 1, by omega⟩
  have hB : validUtf8B l = validUtf8BAux l.length l := rfl
  rw [hB, hl, validUtf8BAux_succ_some n l p hd,
    validUtf8BAux_fuel n (l.drop p.2) (by have := List.length_drop p.2 l; omega)]

theorem validUtf8B_step_none (l : List Nat) (hd : utf8DecodeFirst l = none) :
    validUtf8B l = l.isEmpty := by
  by_cases hnil : l = []
  · subst hnil; rfl
  · obtain ⟨n, hl⟩ : ∃ n, l.length = n + 1 :=
      ⟨l.length - 1, by
        have := List.length_pos.mpr hnil
        omega⟩
    have hB : validUtf8B l = validUtf8BAux l.length l := rfl
    rw [hB, hl, validUtf8BAux_succ_none n l hd]

theorem validUtf8B_nil : validUtf8B [] = true := rfl

/-- A valid nonempty sequence starts with a decodable scalar. -/
theorem validUtf8B_decode (l : List Nat) (hv : validUtf8B l = true) (hne : l ≠ []) :
    ∃ c k, utf8DecodeFirst l = some (c, k) ∧ validUtf8B (l.drop k) = true := by
  match hd : utf8DecodeFirst l with
  | some p =>
    refine ⟨p.1, p.2, rfl, ?_⟩
    rw [← validUtf8B_step_some l p hd]
    exact hv
  | none =>
    rw [validUtf8B_step_none l hd] at hv
    simp only [List.isEmpty_iff] at hv
    exact absurd hv hne

/-- Prepending the encoding of a valid scalar preserves validity. -/
theorem validUtf8B_cons_char (c : Nat) (r : List Nat) (hc : validScalarB c = true)
    (hr : validUtf8B r = true) : validUtf8B (utf8Encode c ++ r) = true := by
  rw [validUtf8B_step_some (utf8Encode c ++ r) (c, utf8Len c)
    (utf8DecodeFirst_encode c r hc)]
  have hlen : utf8Len c = (utf8Encode c).length := (utf8Encode_length c).symm
  show validUtf8B ((utf8Encode c ++ r).drop (utf8Len c)) = true
  rw [hlen, List.drop_left]
  exact hr

theorem getD_take_of_lt (l : List Nat) (k j : Nat) (h : j < k) :
    (l.take k).getD j 0 = l.getD j 0 := by
  rw [List.getD_eq_getElem?_getD, List.getD_eq_getElem?_getD, List.getElem?_take, if_pos h]

theorem getD_drop_add (l : List Nat) (n j : Nat) :
    (l.drop n).getD j 0 = l.getD (n + j) 0 := by
  rw [List.getD_eq_getElem?_getD, List.getD_eq_getElem?_getD, List.getElem?_drop]

theorem isCharBoundary_zero (text : Buffer) : isCharBoundary text 0 = true := by
  simp [isCharBoundary]

theorem isCharBoundary_len (text : Buffer) : isCharBoundary text text.length = true := by
  unfold isCharBoundary
  split
  · rfl
  · rw [if_neg (by omega)]
    simp

theorem isCharBoundary_of_gt (text : Buffer) (i : Nat) (h : text.length < i) :
    isCharBoundary text i = false := by
  unfold isCharBoundary
  rw [if_neg (by omega), if_neg (by omega)]
  simp
  omega

theorem isCharBoundary_true_le (text : Buffer) (i : Nat)
    (h : isCharBoundary text i = true) : i ≤ text.length := by
  by_contra hc
  rw [isCharBoundary_of_gt text i (by omega)] at h
  exact absurd h (by simp)

theorem isCharBoundary_mid (text : Buffer) (i : Nat) (h0 : i ≠ 0) (h1 : i < text.length) :
    isCharBoundary text i = decide (text.getD i 0 < 128 ∨ 192 ≤ text.getD i 0) := by
  unfold isCharBoundary
  rw [if_neg h0, if_pos h1]

/-- The non-leading bytes of an encoded scalar are continuation bytes. -/
theorem utf8Encode_getD_cont (c i : Nat) (h1 : 0 < i) (h2 : i < (utf8Encode c).length) :
    contB ((utf8Encode c).getD i 0) = true := by
  unfold utf8Encode at h2 ⊢
  by_cases e1 : c < 128
  · rw [if_pos e1] at h2
    simp at h2
    omega
  · rw [if_neg e1] at h2 ⊢
    by_cases e2 : c < 2048
    · rw [if_pos e2] at h2 ⊢
      simp only [List.length_cons, List.length_nil] at h2
      match i with
      | 1 => simp only [List.getD_cons_succ, List.getD_cons_zero, contB,
          decide_eq_true_eq]; omega
      | n + 2 => omega
    · rw [if_neg e2] at h2 ⊢
      by_cases e3 : c < 65536
      · rw [if_pos e3] at h2 ⊢
        simp only [List.length_cons, List.length_nil] at h2
        match i with
        | 1 => simp only [List.getD_cons_succ, List.getD_cons_zero, contB,
            decide_eq_true_eq]; omega
        | 2 => simp only [List.getD_cons_succ, List.getD_cons_zero, contB,
            decide_eq_true_eq]; omega
        | n + 3 => omega
      · rw [if_neg e3] at h2 ⊢
        simp only [List.length_cons, List.length_nil] at h2
        match i with
        | 1 => simp only [List.getD_cons_succ, List.getD_cons_zero, contB,
            decide_eq_true_eq]; omega
        | 2 => simp only [List.getD_cons_succ, List.getD_cons_zero, contB,
            decide_eq_true_eq]; omega
        | 3 => simp only [List.getD_cons_succ, List.getD_cons_zero, contB,
            decide_eq_true_eq]; omega
        | n + 4 => omega

/-- The leading byte of an encoded scalar is not a continuation byte. -/
theorem utf8Encode_getD_head (c : Nat) :
    (utf8Encode c).getD 0 0 < 128 ∨ 192 ≤ (utf8Encode c).getD 0 0 := by
  unfold utf8Encode
  by_cases e1 : c < 128
  · rw [if_pos e1]; simp; omega
  · rw [if_neg e1]
    by_cases e2 : c < 2048
    · rw [if_pos e2]; simp
    · rw [if_neg e2]
      by_cases e3 : c < 65536
      · rw [if_pos e3]; simp; omega
      · rw [if_neg e3]; simp; omega

/-- Char-boundary testing commutes with dropping a prefix. -/
theorem isCharBoundary_drop_shift (l : List Nat) (k i : Nat) (hk : k ≤ l.length)
    (hi : 1 ≤ i) : isCharBoundary (l.drop k) i = isCharBoundary l (k + i) := by
  have hlen : (l.drop k).length = l.length - k := List.length_drop _ _
  unfold isCharBoundary
  rw [if_neg (show ¬(i = 0) by omega), if_neg (show ¬(k + i = 0) by omega)]
  by_cases hin : i < (l.drop k).length
  · rw [if_pos hin, if_pos (show k + i < l.length by omega), getD_drop_add]
  · rw [if_neg hin, if_neg (show ¬(k + i < l.length) by omega)]
    simp only [decide_eq_decide]
    omega

/-- A suffix of a valid sequence cut at a char boundary is valid. -/
theorem validUtf8B_drop_of_boundary :
    ∀ (i : Nat) (l : List Nat), validUtf8B l = true → isCharBoundary l i = true →
      validUtf8B (l.drop i) = true := by
  intro i
  induction i using Nat.strong_induction_on with
  | _ i ih =>
    intro l hv hb
    match i with
    | 0 => simpa using hv
    | i + 1 =>
      have hle : i + 1 ≤ l.length := isCharBoundary_true_le l (i + 1) hb
      have hne : l ≠ [] := by
        intro hl
        subst hl
        simp at hle
      obtain ⟨c, k, hd, hv2⟩ := validUtf8B_decode l hv hne
      obtain ⟨htake, hval, hk1, hk2⟩ := utf8DecodeFirst_some l c k hd
      have henclen : (utf8Encode c).length = k := by
        rw [← htake]
        simp only [List.length_take]
        omega
      by_cases hik : i + 1 < k
      · exfalso
        have hcont : contB (l.getD (i + 1) 0) = true := by
          rw [← getD_take_of_lt l k (i + 1) hik, htake]
          exact utf8Encode_getD_cont c (i + 1) (by omega) (by omega)
        have hlt : i + 1 < l.length := by omega
        rw [isCharBoundary_mid l (i + 1) (by omega) hlt] at hb
        simp only [contB, decide_eq_true_eq] at hcont
        simp only [decide_eq_true_eq] at hb
        omega
      · have hdrop : l.drop (i + 1) = (l.drop k).drop (i + 1 - k) := by
          rw [List.drop_drop]
          congr 1
          omega
        rw [hdrop]
        by_cases hik0 : i + 1 = k
        · rw [show i + 1 - k = 0 by omega]
          simpa using hv2
        · have hb2 : isCharBoundary (l.drop k) (i + 1 - k) = true := by
            rw [isCharBoundary_drop_shift l k (i + 1 - k) (by omega) (by omega),
              show k + (i + 1 - k) = i + 1 by omega]
            exact hb
          exact ih (i + 1 - k) (by omega) (l.drop k) hv2 hb2

/-- A prefix of a valid sequence cut at a char boundary is valid. -/
theorem validUtf8B_take_of_boundary :
    ∀ (i : Nat) (l : List Nat), validUtf8B l = true → isCharBoundary l i = true →
      validUtf8B (l.take i) = true := by
  intro i
  induction i using Nat.strong_induction_on with
  | _ i ih =>
    intro l hv hb
    match i with
    | 0 => simp [validUtf8B_nil]
    | i + 1 =>
      have hle : i + 1 ≤ l.length := isCharBoundary_true_le l (i + 1) hb
      have hne : l ≠ [] := by
        intro hl
        subst hl
        simp at hle
      obtain ⟨c, k, hd, hv2⟩ := validUtf8B_decode l hv hne
      obtain ⟨htake, hval, hk1, hk2⟩ := utf8DecodeFirst_some l c k hd
      have henclen : (utf8Encode c).length = k := by
        rw [← htake]
        simp only [List.length_take]
        omega
      by_cases hik : i + 1 < k
      · exfalso
        have hcont : contB (l.getD (i + 1) 0) = true := by
          rw [← getD_take_of_lt l k (i + 1) hik, htake]
          exact utf8Encode_getD_cont c (i + 1) (by omega) (by omega)
        have hlt : i + 1 < l.length := by omega
        rw [isCharBoundary_mid l (i + 1) (by omega) hlt] at hb
        simp only [contB, decide_eq_true_eq] at hcont
        simp only [decide_eq_true_eq] at hb
        omega
      · have htk : l.take (i + 1) = utf8Encode c ++ (l.drop k).take (i + 1 - k) := by
          obtain ⟨j, hj⟩ : ∃ j, i + 1 = k + j := ⟨i + 1 - k, by omega⟩
          rw [hj, List.take_add, htake, show k + j - k = j by omega]
        rw [htk]
        by_cases hik0 : i + 1 = k
        · rw [show i + 1 - k = 0 by omega]
          simpa using validUtf8B_cons_char c [] hval validUtf8B_nil
        · have hb2 : isCharBoundary (l.drop k) (i + 1 - k) = true := by
            rw [isCharBoundary_drop_shift l k (i + 1 - k) (by omega) (by omega),
              show k + (i + 1 - k) = i + 1 by omega]
            exact hb
          exact validUtf8B_cons_char c _ hval
            (ih (i + 1 - k) (by omega) (l.drop k) hv2 hb2)

theorem validUtf8B_append_aux :
    ∀ (n : Nat) (x y : List Nat), x.length ≤ n → validUtf8B x = true →
      validUtf8B y = true → validUtf8B (x ++ y) = true := by
  intro n
  induction n using Nat.strong_induction_on with
  | _ n ih =>
    intro x y hn hvx hvy
    match x with
    | [] => simpa using hvy
    | b :: t =>
      obtain ⟨c, k, hd, hv2⟩ := validUtf8B_decode (b :: t) hvx (by simp)
      obtain ⟨htake, hval, hk1, hk2⟩ := utf8DecodeFirst_some _ c k hd
      have hsplit : (b :: t) ++ y = utf8Encode c ++ ((b :: t).drop k ++ y) := by
        rw [← htake, ← List.append_assoc, List.take_append_drop]
      rw [hsplit]
      refine validUtf8B_cons_char c _ hval ?_
      have hlen : ((b :: t).drop k).length = (b :: t).length - k := List.length_drop _ _
      have hlc : (b :: t).length = t.length + 1 := by simp
      exact ih t.length (by omega) _ y (by omega) hv2 hvy

/-- Concatenation of valid UTF-8 sequences is valid. -/
theorem validUtf8B_append (x y : List Nat) (hx : validUtf8B x = true)
    (hy : validUtf8B y = true) : validUtf8B (x ++ y) = true :=
  validUtf8B_append_aux x.length x y (le_refl _) hx hy

/-- The first byte of a valid nonempty sequence is a lead byte. -/
theorem validUtf8B_head_lead (l : List Nat) (hv : validUtf8B l = true) (hne : l ≠ []) :
    l.getD 0 0 < 128 ∨ 192 ≤ l.getD 0 0 := by
  obtain ⟨c, k, hd, -⟩ := validUtf8B_decode l hv hne
  obtain ⟨htake, hval, hk1, hk2⟩ := utf8DecodeFirst_some l c k hd
  have h0 : l.getD 0 0 = (utf8Encode c).getD 0 0 := by
    rw [← htake, getD_take_of_lt l k 0 (by omega)]
  rw [h0]
  exact utf8Encode_getD_head c

/-! ### Primitive `String` operations -/

/-- Rust `String::insert` / `String::insert_str`: splices bytes at a byte index;
panics (`none`) unless the index is a char boundary (which requires it to be at
most the length). -/
def stringInsert (text : Buffer) (i : Nat) (bs : List Nat) : Option Buffer :=
  if isCharBoundary text i then some (text.take i ++ bs ++ text.drop i) else none

/-- Rust `String::remove`: removes and returns the scalar starting at the index;
panics if the index is at or past the end or not a char boundary. -/
def stringRemove (text : Buffer) (i : Nat) : Option (Nat × Buffer) :=
  if i < text.length ∧ isCharBoundary text i = true then
    match utf8DecodeFirst (text.drop i) with
    | some p => some (p.1, text.take i ++ text.drop (i + p.2))
    | none => none
  else none

/-- Rust `String::replace_range(a..b, "")`: removes the byte range `[a, b)`;
panics unless `a ≤ b` and both ends are char boundaries. -/
def replaceRange (text : Buffer) (a b : Nat) : Option Buffer :=
  if a ≤ b ∧ isCharBoundary text a = true ∧ isCharBoundary text b = true then
    some (text.take a ++ text.drop b)
  else none

/-- Rust `&text[a..b]` slicing (as used by `DeleteRange::new`); panics unless
the range is boundary-aligned. -/
def sliceBytes (text : Buffer) (a b : Nat) : Option (List Nat) :=
  if a ≤ b ∧ isCharBoundary text a = true ∧ isCharBoundary text b = true then
    some ((text.drop a).take (b - a))
  else none

/-! ### Boundary and scan utilities -/

/-- `EditboxState::word_delimeter`. -/
def word_delimeter (character : Nat) : Bool :=
  character == 32 || character == 40 || character == 41 || character == 59 || character == 34

/-- Loop of `find_line_begin`: walk the offset down until offset 0 or a newline
byte (the byte at the starting offset included). -/
def scanLineBegin (text : Buffer) : Nat → Nat
  | 0 => 0
  | t + 1 => if text.getD (t + 1) 0 = 10 then t + 1 else scanLineBegin text t

/-- `EditboxState::find_line_begin`: distance from the cursor back to the line
start; the scan starts clamped to `min cursor (max(len,1) as u32 - 1)`. -/
def find_line_begin (cursor : Nat) (text : Buffer) : Nat :=
  cursor - scanLineBegin text (min cursor (u32Sub (max text.length 1) 1))

/-- Loop of `find_line_end` (fuel-bounded; the fuel used by `scanLineEnd` is
always sufficient): walk the offset up until `len as u32` or a newline byte. -/
def scanLineEndAux (text : Buffer) : Nat → Nat → Nat
  | 0, c => c
  | f + 1, c =>
    if c < text.length % U32M ∧ ¬(text.getD c 0 = 10) then scanLineEndAux text f (c + 1)
    else c

def scanLineEnd (text : Buffer) (c : Nat) : Nat :=
  scanLineEndAux text (text.length % U32M - c + 1) c

/-- `EditboxState::find_line_end`: distance from the cursor to the line end
(`u32` subtraction, which wraps when the cursor is past the end). -/
def find_line_end (cursor : Nat) (text : Buffer) : Nat :=
  u32Sub (scanLineEnd text (min cursor (text.length % U32M))) cursor

/-- Loop of `find_word_begin`: walk down from the starting offset counting
steps until offset 0, a word delimiter or a newline; offsets at or past the
end of the buffer read as a space. -/
def wordCharAt (text : Buffer) (i : Nat) : Nat :=
  if i < text.length then text.getD i 0 else 32

def findWordBeginGo (text : Buffer) : Nat → Nat → Nat
  | 0, offset => offset
  | t + 1, offset =>
    if word_delimeter (wordCharAt text (t + 1)) || wordCharAt text (t + 1) == 10 then
      offset
    else findWordBeginGo text t (offset + 1)

/-- `EditboxState::find_word_begin`. -/
def find_word_begin (text : Buffer) (cursor : Nat) : Nat := findWordBeginGo text cursor 0

/-- Loop of `find_word_end` (fuel-bounded; the fuel used by `find_word_end` is
always sufficient): walk up counting steps; entering a delimiter or newline
sets the skipping flag, and a non-delimiter with the flag set stops the scan. -/
def findWordEndAux (text : Buffer) : Nat → Nat → Nat → Bool → Nat
  | 0, _, offset, _ => offset
  | f + 1, tmp, offset, spaceSkipping =>
    if tmp < text.length % U32M then
      if (spaceSkipping || word_delimeter (text.getD tmp 0) || text.getD tmp 0 == 10) &&
          !word_delimeter (text.getD tmp 0) then offset
      else findWordEndAux text f (tmp + 1) (offset + 1)
        (spaceSkipping || word_delimeter (text.getD tmp 0) || text.getD tmp 0 == 10)
    else offset

/-- `EditboxState::find_word_end`. -/
def find_word_end (text : Buffer) (cursor : Nat) : Nat :=
  findWordEndAux text (text.length % U32M - cursor + 1) cursor 0 false

/-! ### Cursor realignment loops -/

/-- Loop body of the `while !text.is_char_boundary (...) { cursor += 1 }`
realignment (fuel-bounded; `U32M` fuel always suffices because stepping wraps
to offset 0, which is a boundary).  The step is `u32` addition. -/
def alignForwardAux (text : Buffer) : Nat → Nat → Nat
  | 0, c => c
  | f + 1, c => if isCharBoundary text c then c else alignForwardAux text f ((c + 1) % U32M)

/-- Forward realignment of a `u32` cursor to the next char boundary. -/
def alignForward (text : Buffer) (c : Nat) : Nat := alignForwardAux text U32M c

/-- The `while !text.is_char_boundary (...) { cursor -= 1 }` realignment.
Offset 0 is always a boundary, so the loop never underflows. -/
def alignBackward (text : Buffer) : Nat → Nat
  | 0 => 0
  | c + 1 => if isCharBoundary text (c + 1) then c + 1 else alignBackward text c

/-! ### Edit commands -/

/-- The four edit-command variants (`InsertCharacter`, `InsertString`,
`DeleteCharacter`, `DeleteRange`) as one closed sum.  Characters are scalar
values; string payloads are byte lists. -/
inductive Command
  | insertCharacter (character : Nat) (cursor : Nat)
  | insertString (data : List Nat) (cursor : Nat)
  | deleteCharacter (character : Nat) (cursor : Nat)
  | deleteRange (range : Nat × Nat) (data : List Nat)
deriving DecidableEq

/-- `Command::apply`: the forward mutation.  Returns the new cursor and buffer;
`none` wherever the Rust code would panic. -/
def Command.apply : Command → Nat → Buffer → Option (Nat × Buffer)
  | .insertCharacter ch c, _, text => do
    let t2 ← if c ≤ text.length then stringInsert text c (utf8Encode ch) else some text
    some (alignForward t2 ((c + 1) % U32M), t2)
  | .insertString d c, _, text => do
    let t2 ← if c ≤ text.length then stringInsert text c d else some text
    some ((c + d.length) % U32M, t2)
  | .deleteCharacter _ c, _, text =>
    if c < text.length then
      match stringRemove text c with
      | some p => some (c, p.2)
      | none => none
    else some (c, text)
  | .deleteRange (a, b) _, _, text => do
    let t2 ← replaceRange text (min a b) (max a b)
    some (min a b, t2)

/-- `Command::unapply`: the inverse mutation. -/
def Command.unapply : Command → Nat → Buffer → Option (Nat × Buffer)
  | .insertCharacter _ c, _, text =>
    if c < text.length then
      match stringRemove text c with
      | some p => some (c, p.2)
      | none => none
    else some (c, text)
  | .insertString d c, _, text =>
    if c < text.length then
      match replaceRange text c (min (c + d.length) text.length) with
      | some t2 => some (c, t2)
      | none => none
    else some (c, text)
  | .deleteCharacter ch c, _, text =>
    if c ≤ text.length then
      match stringInsert text c (utf8Encode ch) with
      | some t2 => some ((c + 1) % U32M, t2)
      | none => none
    else some ((c + 1) % U32M, text)
  | .deleteRange (a, b) d, _, text =>
    match stringInsert text (min a b) d with
    | some t2 => some (min a b, t2)
    | none => none

/-! ### Editor state -/

/-- `ClickState` of the click/gesture state machine. -/
inductive ClickState
  | none
  | selectingChars (selectionBegin : Nat)
  | selectingWords (selectedWord : Nat × Nat)
  | selectingLines (selectedLine : Nat × Nat)
  | selected
deriving DecidableEq

/-- `DOUBLE_CLICK_TIME`.  The `f32` clock is modeled by exact rationals; the
engine only ever compares `time - last_click_time < 0.5`. -/
def DOUBLE_CLICK_TIME : ℚ := 1 / 2

/-- `EditboxState`.  The history stacks grow at the head: `Vec::push`/`pop`
at the end of the Rust vector corresponds to cons/head here (most recent
command first). -/
structure EditboxState where
  cursor : Nat
  click_state : ClickState
  clicks_counter : Nat
  current_click : Nat
  last_click_time : ℚ
  last_click : Nat
  selection : Option (Nat × Nat)
  undo_stack : List Command
  redo_stack : List Command
deriving DecidableEq

/-! ### High-level operations -/

/-- `EditboxState::insert_character`. -/
def insert_character (s : EditboxState) (text : Buffer) (character : Nat) :
    Option (EditboxState × Buffer) := do
  let s1 := { s with redo_stack := [], selection := none }
  let cmd := Command.insertCharacter character s1.cursor
  let (c2, t2) ← cmd.apply s1.cursor text
  some ({ s1 with cursor := c2, undo_stack := cmd :: s1.undo_stack }, t2)

/-- `EditboxState::insert_string` (the payload already UTF-8 encoded). -/
def insert_string (s : EditboxState) (text : Buffer) (data : List Nat) :
    Option (EditboxState × Buffer) := do
  let s1 := { s with redo_stack := [], selection := none }
  let cmd := Command.insertString data s1.cursor
  let (c2, t2) ← cmd.apply s1.cursor text
  some ({ s1 with cursor := c2, undo_stack := cmd :: s1.undo_stack }, t2)

/-- `DeleteRange::new`: snapshots the selected substring (panics if the range
is not boundary-aligned). -/
def DeleteRange_new (text : Buffer) (range : Nat × Nat) : Option Command := do
  let d ← sliceBytes text (min range.1 range.2) (max range.1 range.2)
  some (Command.deleteRange range d)

/-- `EditboxState::delete_selected`. -/
def delete_selected (s : EditboxState) (text : Buffer) : Option (EditboxState × Buffer) :=
  let s1 := { s with redo_stack := [] }
  match s1.selection with
  | some range => do
    let cmd ← DeleteRange_new text range
    let (c2, t2) ← cmd.apply s1.cursor text
    some ({ s1 with cursor := c2, selection := none, undo_stack := cmd :: s1.undo_stack },
      t2)
  | none => some ({ s1 with selection := none }, text)

/-- `DeleteCharacter::new`: captures the scalar at the cursor; `none` when the
cursor is out of range or off a boundary (no command is built). -/
def DeleteCharacter_new (s : EditboxState) (text : Buffer) : Option Command :=
  if s.cursor < text.length ∧ isCharBoundary text s.cursor = true then
    match utf8DecodeFirst (text.drop s.cursor) with
    | some p => some (Command.deleteCharacter p.1 s.cursor)
    | none => none
  else none

/-- `EditboxState::delete_next_character` (forward delete). -/
def delete_next_character (s : EditboxState) (text : Buffer) :
    Option (EditboxState × Buffer) :=
  let s1 := { s with redo_stack := [] }
  match DeleteCharacter_new s1 text with
  | some cmd => do
    let (c2, t2) ← cmd.apply s1.cursor text
    some ({ s1 with cursor := c2, undo_stack := cmd :: s1.undo_stack }, t2)
  | none => some (s1, text)

/-- `EditboxState::delete_current_character` (backspace): step the cursor back
one scalar, then forward-delete. -/
def delete_current_character (s : EditboxState) (text : Buffer) :
    Option (EditboxState × Buffer) :=
  if 0 < s.cursor then
    delete_next_character { s with cursor := alignBackward text (s.cursor - 1) } text
  else some (s, text)

/-- `EditboxState::move_cursor`: `dx` is the mathematical value of the `i32`
argument.  The in-range test uses `i32` casts and release-mode wrapping; the
realignment steps by the sign of `dx`. -/
def move_cursor (s : EditboxState) (text : Buffer) (dx : Int) (shift : Bool) :
    EditboxState :=
  let startCursor := s.cursor
  let sum := i32Wrap (u32AsI32 s.cursor + dx)
  let c1 := if sum ≤ u32AsI32 text.length ∧ 0 ≤ sum then i32AsU32 sum else s.cursor
  let c2 :=
    if dx ≠ 0 then
      if 0 < dx then alignForward text c1 else alignBackward text c1
    else c1
  let sel :=
    if shift then
      match s.selection with
      | none => some (startCursor, c2)
      | some (a, _) => some (a, c2)
    else none
  { s with cursor := c2, selection := sel }

/-- `EditboxState::move_cursor_next_word`. -/
def move_cursor_next_word (s : EditboxState) (text : Buffer) (shift : Bool) :
    EditboxState :=
  let nextWord := (find_word_end text ((s.cursor + 1) % U32M) + 1) % U32M
  move_cursor s text (u32AsI32 nextWord) shift

/-- `EditboxState::move_cursor_prev_word`. -/
def move_cursor_prev_word (s : EditboxState) (text : Buffer) (shift : Bool) :
    EditboxState :=
  if 1 < s.cursor then
    let prevWord := (find_word_begin text (s.cursor - 1) + 1) % U32M
    move_cursor s text (i32Wrap (-(u32AsI32 prevWord))) shift
  else s

/-- `EditboxState::deselect`. -/
def deselect (s : EditboxState) : EditboxState :=
  { s with click_state := ClickState.none, selection := none }

/-- `EditboxState::select_word`: selection from the word scans around the
cursor; also returns the new range. -/
def select_word (s : EditboxState) (text : Buffer) : EditboxState × (Nat × Nat) :=
  let toWordBegin := find_word_begin text s.cursor
  let toWordEnd := find_word_end text s.cursor
  let newSelection := (s.cursor - toWordBegin, (s.cursor + toWordEnd) % U32M)
  ({ s with selection := some newSelection }, newSelection)

/-- `EditboxState::select_line`. -/
def select_line (s : EditboxState) (text : Buffer) : EditboxState × (Nat × Nat) :=
  let toLineBegin := find_line_begin s.cursor text
  let toLineEnd := find_line_end s.cursor text
  let newSelection := (s.cursor - toLineBegin, (s.cursor + toLineEnd) % U32M)
  ({ s with selection := some newSelection }, newSelection)

/-- `EditboxState::click_down`. -/
def click_down (s : EditboxState) (time : ℚ) (text : Buffer) (cursor : Nat) :
    EditboxState :=
  let s0 := { s with current_click := cursor }
  let s1 :=
    if s0.last_click = s0.current_click ∧ time - s0.last_click_time < DOUBLE_CLICK_TIME
    then
      let s2 := { s0 with clicks_counter := (s0.clicks_counter + 1) % U32M }
      if s2.clicks_counter % 3 = 0 then
        { (deselect s2) with click_state := ClickState.none }
      else if s2.clicks_counter % 3 = 1 then
        let r := select_word s2 text
        { r.1 with click_state := ClickState.selectingWords r.2 }
      else
        let r := select_line s2 text
        { r.1 with click_state := ClickState.selectingLines r.2 }
    else
      let s2 := { s0 with clicks_counter := 0 }
      match s2.click_state with
      | ClickState.none =>
        { s2 with click_state := ClickState.selectingChars cursor,
                  selection := some (cursor, cursor) }
      | ClickState.selected =>
        { s2 with click_state := ClickState.selectingChars cursor,
                  selection := some (cursor, cursor) }
      | _ => { s2 with click_state := ClickState.none, selection := none, cursor := cursor }
  { s1 with last_click_time := time, last_click := cursor }

/-- `EditboxState::click_move`. -/
def click_move (s : EditboxState) (text : Buffer) (cursor : Nat) : EditboxState :=
  let s0 := { s with cursor := cursor }
  let s1 := if s0.cursor ≠ s0.last_click then { s0 with clicks_counter := 0 } else s0
  let s2 :=
    match s1.click_state with
    | ClickState.selectingChars selectionBegin =>
      { s1 with selection := some (selectionBegin, cursor) }
    | ClickState.selectingWords (f, t) =>
      if cursor < f then
        let wordBegin := s1.cursor - find_word_begin text s1.cursor
        { s1 with selection := some (wordBegin, t), cursor := wordBegin }
      else if t < cursor then
        let wordEnd := (s1.cursor + find_word_end text s1.cursor) % U32M
        { s1 with selection := some (f, wordEnd), cursor := wordEnd }
      else
        { s1 with selection := some (f, t), cursor := t }
    | ClickState.selectingLines (f, t) =>
      if cursor < f then
        let lineBegin := s1.cursor - find_line_begin s1.cursor text
        let lineEnd := (s1.cursor + find_line_end s1.cursor text) % U32M
        { s1 with selection := some (lineBegin, t), cursor := lineEnd }
      else if t < cursor then
        let lineEnd := (s1.cursor + find_line_end s1.cursor text) % U32M
        { s1 with selection := some (f, lineEnd), cursor := lineEnd }
      else
        { s1 with selection := some (f, t), cursor := t }
    | _ => s1
  { s2 with last_click := cursor }

/-- `EditboxState::click_up`. -/
def click_up (s : EditboxState) (_text : Buffer) : EditboxState :=
  let s1 := { s with click_state := ClickState.none }
  match s1.selection with
  | some (f, t) =>
    if f ≠ t then { s1 with click_state := ClickState.selected }
    else { s1 with selection := none }
  | none => s1

/-- `EditboxState::undo`: pop, unapply, move to the redo stack. -/
def undo (s : EditboxState) (text : Buffer) : Option (EditboxState × Buffer) :=
  match s.undo_stack with
  | [] => some (s, text)
  | cmd :: rest => do
    let (c2, t2) ← cmd.unapply s.cursor text
    some ({ s with cursor := c2, undo_stack := rest, redo_stack := cmd :: s.redo_stack },
      t2)

/-- `EditboxState::redo`. -/
def redo (s : EditboxState) (text : Buffer) : Option (EditboxState × Buffer) :=
  match s.redo_stack with
  | [] => some (s, text)
  | cmd :: rest => do
    let (c2, t2) ← cmd.apply s.cursor text
    some ({ s with cursor := c2, redo_stack := rest, undo_stack := cmd :: s.undo_stack },
      t2)

/-! ### Arithmetic helper lemmas -/

theorem u32Sub_eq (a b : Nat) (hb : b ≤ a) (ha : a < U32M) : u32Sub a b = a - b := by
  unfold u32Sub U32M at *
  omega

theorem u32AsI32_small (n : Nat) (h : n < I32H) : u32AsI32 n = (n : Int) := by
  unfold u32AsI32 U32M I32H at *
  rw [Nat.mod_eq_of_lt (by omega), if_pos (by omega)]

theorem i32Wrap_small (x : Int) (h1 : -(I32H : Int) ≤ x) (h2 : x < I32H) :
    i32Wrap x = x := by
  unfold i32Wrap U32M I32H at *
  omega

theorem i32Wrap_high (x : Int) (h1 : (I32H : Int) ≤ x) (h2 : x < 2 * (I32H : Int)) :
    i32Wrap x = x - (U32M : Int) := by
  unfold i32Wrap U32M I32H at *
  omega

theorem i32AsU32_of_nonneg (x : Int) (h1 : 0 ≤ x) (h2 : x < (U32M : Int)) :
    i32AsU32 x = x.toNat := by
  unfold i32AsU32 U32M at *
  omega

/-! ### Bounds for the scan and realignment loops -/

theorem scanLineEndAux_bounds (text : Buffer) :
    ∀ (f c : Nat), c ≤ scanLineEndAux text f c ∧
      (c ≤ text.length % U32M → scanLineEndAux text f c ≤ text.length % U32M) := by
  intro f
  induction f with
  | zero => intro c; exact ⟨le_refl c, fun h => h⟩
  | succ f ih =>
    intro c
    rw [scanLineEndAux.eq_2]
    split
    · next hcond =>
      exact ⟨le_trans (by omega) (ih (c + 1)).1, fun _ => (ih (c + 1)).2 (by omega)⟩
    · exact ⟨le_refl c, fun h => h⟩

theorem scanLineEnd_bounds (text : Buffer) (c : Nat) :
    c ≤ scanLineEnd text c ∧
      (c ≤ text.length % U32M → scanLineEnd text c ≤ text.length % U32M) :=
  scanLineEndAux_bounds text _ c

theorem scanLineBegin_le (text : Buffer) : ∀ c : Nat, scanLineBegin text c ≤ c := by
  intro c
  induction c with
  | zero => exact le_refl 0
  | succ c ih =>
    rw [scanLineBegin.eq_2]
    split
    · exact le_refl _
    · exact le_trans ih (by omega)

theorem findWordBeginGo_le (text : Buffer) :
    ∀ (t acc : Nat), findWordBeginGo text t acc ≤ acc + t := by
  intro t
  induction t with
  | zero => intro acc; exact le_refl acc
  | succ t ih =>
    intro acc
    rw [findWordBeginGo.eq_2]
    split
    · omega
    · exact le_trans (ih (acc + 1)) (by omega)

/-- `find_word_begin text c ≤ c`: the backward word scan never passes offset 0,
so the `u32` subtraction `cursor - find_word_begin` in the source never
underflows and is modeled by plain subtraction. -/
theorem find_word_begin_le (text : Buffer) (c : Nat) : find_word_begin text c ≤ c := by
  have := findWordBeginGo_le text c 0
  unfold find_word_begin
  omega

theorem findWordEndAux_le (text : Buffer) :
    ∀ (f tmp acc : Nat) (ss : Bool),
      findWordEndAux text f tmp acc ss ≤ acc + (text.length % U32M - tmp) := by
  intro f
  induction f with
  | zero => intro tmp acc ss; exact Nat.le_add_right acc _
  | succ f ih =>
    intro tmp acc ss
    rw [findWordEndAux.eq_2]
    split
    · next hctmp =>
      split
      · exact Nat.le_add_right acc _
      · exact le_trans (ih (tmp + 1) (acc + 1) _) (by omega)
    · exact Nat.le_add_right acc _

/-- `find_word_end text c ≤ len as u32 - c` (0 when the cursor is past the
end), so `cursor + find_word_end` never overflows `u32`. -/
theorem find_word_end_le (text : Buffer) (c : Nat) :
    find_word_end text c ≤ text.length % U32M - c := by
  have := findWordEndAux_le text (text.length % U32M - c + 1) c 0 false
  unfold find_word_end
  omega

theorem find_line_begin_le (cursor : Nat) (text : Buffer) :
    find_line_begin cursor text ≤ cursor := by
  unfold find_line_begin
  omega

theorem find_line_end_le (cursor : Nat) (text : Buffer) (hc : cursor ≤ text.length)
    (hlen : text.length < U32M) : cursor + find_line_end cursor text ≤ text.length := by
  unfold find_line_end
  have hL : text.length % U32M = text.length := Nat.mod_eq_of_lt hlen
  rw [hL, min_eq_left hc]
  obtain ⟨h1, h2⟩ := scanLineEnd_bounds text cursor
  rw [hL] at h2
  rw [u32Sub_eq _ _ h1 (by omega)]
  omega

theorem alignForwardAux_bounds (text : Buffer) (hlen : text.length < U32M) :
    ∀ (f c : Nat), c ≤ text.length → text.length - c < f →
      alignForwardAux text f c ≤ text.length ∧
        isCharBoundary text (alignForwardAux text f c) = true := by
  intro f
  induction f with
  | zero => intro c hc hf; omega
  | succ f ih =>
    intro c hc hf
    rw [alignForwardAux.eq_2]
    split
    · next hb => exact ⟨hc, hb⟩
    · next hb =>
      have hcl : c < text.length := by
        rcases Nat.lt_or_ge c text.length with h | h
        · exact h
        · have hce : c = text.length := by omega
          rw [hce, isCharBoundary_len] at hb
          exact absurd rfl hb
      rw [Nat.mod_eq_of_lt (by omega)]
      exact ih (c + 1) (by omega) (by omega)

/-- Forward realignment from inside the buffer stays inside and lands on a
char boundary. -/
theorem alignForward_bounds (text : Buffer) (c : Nat) (hc : c ≤ text.length)
    (hlen : text.length < U32M) :
    alignForward text c ≤ text.length ∧
      isCharBoundary text (alignForward text c) = true :=
  alignForwardAux_bounds text hlen U32M c hc (by unfold U32M at *; omega)

theorem alignForward_boundary (text : Buffer) (c : Nat)
    (h : isCharBoundary text c = true) : alignForward text c = c := by
  unfold alignForward
  rw [show U32M = 4294967295 + 1 from rfl, alignForwardAux.eq_2, if_pos h]

theorem alignBackward_bounds (text : Buffer) :
    ∀ c : Nat, alignBackward text c ≤ c ∧
      isCharBoundary text (alignBackward text c) = true := by
  intro c
  induction c with
  | zero => exact ⟨le_refl 0, isCharBoundary_zero text⟩
  | succ c ih =>
    rw [alignBackward.eq_2]
    split
    · next hb => exact ⟨le_refl _, hb⟩
    · exact ⟨le_trans ih.1 (by omega), ih.2⟩

theorem alignBackward_boundary (text : Buffer) (c : Nat)
    (h : isCharBoundary text c = true) : alignBackward text c = c := by
  match c with
  | 0 => rfl
  | c + 1 =>
    rw [alignBackward.eq_2, if_pos h]

/-! ### Concrete states and buffers used by the claim theorems -/

/-- A fresh editor state with the given cursor (all other fields zeroed, both
history stacks empty, no selection). -/
def stateAt (c : Nat) : EditboxState :=
  ⟨c, ClickState.none, 0, 0, 0, 0, none, [], []⟩

/-- Bytes of "abc def". -/
def abcDef : Buffer := [97, 98, 99, 32, 100, 101, 102]

/-- Bytes of "hello world". -/
def helloWorld : Buffer := [104, 101, 108, 108, 111, 32, 119, 111, 114, 108, 100]

/-- Bytes of "he world". -/
def heWorld : Buffer := [104, 101, 32, 119, 111, 114, 108, 100]

/-- Bytes of "helorld". -/
def helorld : Buffer := [104, 101, 108, 111, 114, 108, 100]

/-- C6: with buffer "abc def" and cursor at offset 0, `move_cursor_next_word`
places the cursor at offset 4 (the first character of "def"), not at offset 3
(the space), for either value of the shift flag. -/
theorem C6_next_word_lands_on_word_start :
    ∀ shift : Bool, (move_cursor_next_word (stateAt 0) abcDef shift).cursor = 4 := by
  decide

/-- C10: when the cursor is at most 1, `move_cursor_prev_word` returns the
state unchanged (the buffer is taken by shared reference in the source and is
never mutated), so previous-word motion from offset 1 can never reach 0. -/
theorem C10_prev_word_noop_at_cursor_le_one (s : EditboxState) (text : Buffer)
    (shift : Bool) (h : s.cursor ≤ 1) : move_cursor_prev_word s text shift = s := by
  unfold move_cursor_prev_word
  rw [if_neg (by omega)]

/-- Witness for C10 at cursor 1 on buffer "abc def". -/
theorem C10_prev_word_noop_witness :
    (stateAt 1).cursor ≤ 1 ∧ move_cursor_prev_word (stateAt 1) abcDef false = stateAt 1 :=
  ⟨by decide, C10_prev_word_noop_at_cursor_le_one (stateAt 1) abcDef false (by decide)⟩

/-- C4 fails on the code: deleting selection (2,5) from "hello world" removes
bytes 2..5 ("llo") and yields "he world", not "helorld". -/
theorem C4_delete_selected_counterexample :
    (delete_selected { stateAt 0 with selection := some (2, 5) } helloWorld).map
      (fun p => p.2) = some heWorld ∧ heWorld ≠ helorld := by
  decide

/-- C4 amended: the scenario with the correct buffer "he world": delete yields
cursor 2 and no selection; one undo restores "hello world" with cursor 2 and
the selection stays cleared. -/
theorem C4_delete_selected_roundtrip :
    (delete_selected { stateAt 0 with selection := some (2, 5) } helloWorld).map
        (fun p => (p.1.cursor, p.1.selection, p.2)) = some (2, none, heWorld) ∧
    ((delete_selected { stateAt 0 with selection := some (2, 5) } helloWorld).bind
        (fun p => undo p.1 p.2)).map (fun p => (p.1.cursor, p.1.selection, p.2)) =
      some (2, none, helloWorld) := by
  decide

/-- C2 fails on the code for Delete Range: with recorded range (3,5) and an
empty buffer both `apply` and `unapply` hit unguarded boundary-checked string
operations and panic (modeled as `none`). -/
theorem C2_deleteRange_out_of_range_panics :
    (Command.deleteRange (3, 5) [97, 98]).apply 0 [] = none ∧
    (Command.deleteRange (3, 5) [97, 98]).unapply 0 [] = none := by
  decide

/-- C2 amended: for the Insert Character, Insert String and Delete Character
commands a recorded offset beyond the buffer length makes `apply` and
`unapply` leave the buffer unchanged and return without failing (Insert
Character's apply realigns the overflowed cursor, reaching 0 after the `u32`
wrap); Delete Range has no such guard and panics (see the counterexample). -/
theorem C2_out_of_range_commands_are_noops (text : Buffer) (c ch : Nat)
    (d : List Nat) (cur : Nat) (h : text.length < c) :
    (∃ c2, (Command.insertCharacter ch c).apply cur text = some (c2, text)) ∧
    (Command.insertCharacter ch c).unapply cur text = some (c, text) ∧
    (Command.insertString d c).apply cur text = some ((c + d.length) % U32M, text) ∧
    (Command.insertString d c).unapply cur text = some (c, text) ∧
    (Command.deleteCharacter ch c).apply cur text = some (c, text) ∧
    (Command.deleteCharacter ch c).unapply cur text = some ((c + 1) % U32M, text) := by
  have h1 : ¬(c ≤ text.length) := by omega
  have h2 : ¬(c < text.length) := by omega
  refine ⟨⟨alignForward text ((c + 1) % U32M), ?_⟩, ?_, ?_, ?_, ?_, ?_⟩ <;>
    simp [Command.apply, Command.unapply, h1, h2]

/-- Witness for C2 amended: empty buffer, recorded offset 1. -/
theorem C2_out_of_range_witness :
    ([] : Buffer).length < 1 ∧
    ((∃ c2, (Command.insertCharacter 97 1).apply 0 [] = some (c2, [])) ∧
      (Command.insertCharacter 97 1).unapply 0 [] = some (1, []) ∧
      (Command.insertString [97] 1).apply 0 [] = some ((1 + [97].length) % U32M, []) ∧
      (Command.insertString [97] 1).unapply 0 [] = some (1, []) ∧
      (Command.deleteCharacter 97 1).apply 0 [] = some (1, []) ∧
      (Command.deleteCharacter 97 1).unapply 0 [] = some ((1 + 1) % U32M, [])) :=
  ⟨by decide, C2_out_of_range_commands_are_noops [] 1 97 [97] 0 (by decide)⟩

/-- C3 fails on the code: on buffer "ab" with cursor 0, a delta of 5 overshoots
the end and the cursor stays at 0 instead of being clamped to the length 2. -/
theorem C3_move_cursor_no_clamp_counterexample :
    (move_cursor (stateAt 0) [97, 98] 5 false).cursor = 0 ∧ (0 : Nat) ≠ 2 := by
  decide

/-- C5 fails on the code: in SelectingLines{3,5} on "ab\ncd", click_move at
offset 0 (strictly below 3) extends the selection to (0,5) but sets the cursor
to 2, the line-END at the new cursor, not to the line-begin 0. -/
theorem C5_click_move_lines_cursor_counterexample :
    ((click_move { stateAt 4 with click_state := ClickState.selectingLines (3, 5) }
        [97, 98, 10, 99, 100] 0).cursor = 2 ∧
      (click_move { stateAt 4 with click_state := ClickState.selectingLines (3, 5) }
        [97, 98, 10, 99, 100] 0).selection = some (0, 5)) ∧ (2 : Nat) ≠ 0 := by
  decide

/-! ### Branch lemmas for `click_down` -/

/-- `click_down` on a non-repeat click from Idle or Settled: reset the counter
and start a character-selection session (the cursor itself is not moved). -/
theorem click_down_fresh (s : EditboxState) (time : ℚ) (text : Buffer) (cursor : Nat)
    (hrep : ¬(s.last_click = cursor ∧ time - s.last_click_time < DOUBLE_CLICK_TIME))
    (hcs : s.click_state = ClickState.none ∨ s.click_state = ClickState.selected) :
    click_down s time text cursor =
      { s with current_click := cursor, clicks_counter := 0,
               click_state := ClickState.selectingChars cursor,
               selection := some (cursor, cursor),
               last_click_time := time, last_click := cursor } := by
  unfold click_down
  dsimp only
  rw [if_neg hrep]
  rcases hcs with h | h <;> rw [h]

/-- `click_down` on a repeat click whose bumped counter is 0 mod 3: deselect. -/
theorem click_down_repeat_deselect (s : EditboxState) (time : ℚ) (text : Buffer)
    (cursor : Nat)
    (hrep : s.last_click = cursor ∧ time - s.last_click_time < DOUBLE_CLICK_TIME)
    (hc : (s.clicks_counter + 1) % U32M % 3 = 0) :
    click_down s time text cursor =
      { s with current_click := cursor, clicks_counter := (s.clicks_counter + 1) % U32M,
               click_state := ClickState.none, selection := none,
               last_click_time := time, last_click := cursor } := by
  unfold click_down deselect
  dsimp only
  rw [if_pos hrep, if_pos hc]

/-- `click_down` on a repeat click whose bumped counter is 1 mod 3: word
selection around the current cursor (not around the clicked offset). -/
theorem click_down_repeat_word (s : EditboxState) (time : ℚ) (text : Buffer)
    (cursor : Nat)
    (hrep : s.last_click = cursor ∧ time - s.last_click_time < DOUBLE_CLICK_TIME)
    (hc : (s.clicks_counter + 1) % U32M % 3 = 1) :
    click_down s time text cursor =
      { s with current_click := cursor, clicks_counter := (s.clicks_counter + 1) % U32M,
               selection := some (s.cursor - find_word_begin text s.cursor,
                 (s.cursor + find_word_end text s.cursor) % U32M),
               click_state := ClickState.selectingWords
                 (s.cursor - find_word_begin text s.cursor,
                   (s.cursor + find_word_end text s.cursor) % U32M),
               last_click_time := time, last_click := cursor } := by
  unfold click_down select_word
  dsimp only
  rw [if_pos hrep, if_neg (by omega), if_pos hc]

/-- `click_down` on a repeat click whose bumped counter is 2 mod 3: line
selection around the current cursor. -/
theorem click_down_repeat_line (s : EditboxState) (time : ℚ) (text : Buffer)
    (cursor : Nat)
    (hrep : s.last_click = cursor ∧ time - s.last_click_time < DOUBLE_CLICK_TIME)
    (hc : (s.clicks_counter + 1) % U32M % 3 = 2) :
    click_down s time text cursor =
      { s with current_click := cursor, clicks_counter := (s.clicks_counter + 1) % U32M,
               selection := some (s.cursor - find_line_begin s.cursor text,
                 (s.cursor + find_line_end s.cursor text) % U32M),
               click_state := ClickState.selectingLines
                 (s.cursor - find_line_begin s.cursor text,
                   (s.cursor + find_line_end s.cursor text) % U32M),
               last_click_time := time, last_click := cursor } := by
  unfold click_down select_line
  dsimp only
  rw [if_pos hrep, if_neg (by omega), if_neg (by omega)]

/-- C7 fails on the code: from the default state (cursor 0), a click then a
repeat click at offset 3 on "ab cd" leave the selection at (0,3): the word
scan runs at the stale cursor 0, so the selection does not even contain the
clicked offset 3 (3 < 3 is false), let alone span the word "cd" at (3,5). -/
theorem C7_word_click_stale_cursor_counterexample :
    (click_down (click_down (stateAt 0) 1 [97, 98, 32, 99, 100] 3) (5/4)
        [97, 98, 32, 99, 100] 3).selection = some (0, 3) ∧ ¬((0 : Nat) ≤ 3 ∧ 3 < 3) := by
  rw [click_down_fresh (stateAt 0) 1 [97, 98, 32, 99, 100] 3
    (by intro h; exact absurd h.1 (by decide)) (Or.inl rfl)]
  rw [click_down_repeat_word _ (5/4) [97, 98, 32, 99, 100] 3
    ⟨rfl, by norm_num [stateAt, DOUBLE_CLICK_TIME]⟩ (by decide)]
  exact ⟨by decide, by decide⟩

/-- C8 fails on the code for the "in particular" part: a repeat (double) click
at the previous offset selects a word, so the immediately following `click_up`
keeps the selection and settles instead of clearing it. -/
theorem C8_click_up_counterexample :
    (click_up (click_down { stateAt 0 with click_state := ClickState.selected } (1/4)
        [97, 98] 0) [97, 98]).selection = some (0, 2) ∧
    (click_up (click_down { stateAt 0 with click_state := ClickState.selected } (1/4)
        [97, 98] 0) [97, 98]).click_state = ClickState.selected := by
  rw [click_down_repeat_word { stateAt 0 with click_state := ClickState.selected } (1/4)
    [97, 98] 0 ⟨rfl, by norm_num [stateAt, DOUBLE_CLICK_TIME]⟩ (by decide)]
  exact ⟨by decide, by decide⟩

/-- C8 amended: `click_up` resets the state to Idle, then settles and keeps a
proper selection, clears a zero-width selection (state stays Idle), and leaves
an absent selection absent; the "click_down then click_up with no intervening
click_move yields no selection" instance holds for a non-repeat click from
Idle or Settled (a repeat click word- or line-selects in `click_down` itself
and `click_up` keeps that selection — see the counterexample). -/
theorem C8_click_up_contract (s : EditboxState) (text : Buffer) :
    ((s.selection = none →
        (click_up s text).click_state = ClickState.none ∧
          (click_up s text).selection = none) ∧
      (∀ f t : Nat, s.selection = some (f, t) → f ≠ t →
        (click_up s text).click_state = ClickState.selected ∧
          (click_up s text).selection = some (f, t)) ∧
      (∀ f : Nat, s.selection = some (f, f) →
        (click_up s text).click_state = ClickState.none ∧
          (click_up s text).selection = none)) ∧
    (∀ (t0 : ℚ) (o : Nat),
      (s.click_state = ClickState.none ∨ s.click_state = ClickState.selected) →
      ¬(s.last_click = o ∧ t0 - s.last_click_time < DOUBLE_CLICK_TIME) →
      (click_up (click_down s t0 text o) text).click_state = ClickState.none ∧
        (click_up (click_down s t0 text o) text).selection = none) := by
  refine ⟨⟨?_, ?_, ?_⟩, ?_⟩
  · intro h
    unfold click_up
    dsimp only
    rw [h]
    exact ⟨rfl, rfl⟩
  · intro f t hsel hne
    unfold click_up
    dsimp only
    rw [hsel]
    dsimp only
    rw [if_pos hne]
    exact ⟨rfl, rfl⟩
  · intro f hsel
    unfold click_up
    dsimp only
    rw [hsel]
    dsimp only
    rw [if_neg (by simp)]
    exact ⟨rfl, rfl⟩
  · intro t0 o hcs hrep
    rw [click_down_fresh s t0 text o hrep hcs]
    unfold click_up
    dsimp only
    rw [if_neg (by simp)]
    exact ⟨rfl, rfl⟩

/-- Witness for C8: a single non-repeat click at offset 1 then release leaves
no selection and state Idle. -/
theorem C8_click_up_contract_witness :
    (click_up (click_down (stateAt 0) 1 [97, 98] 1) [97, 98]).click_state =
        ClickState.none ∧
      (click_up (click_down (stateAt 0) 1 [97, 98] 1) [97, 98]).selection = none :=
  (C8_click_up_contract (stateAt 0) [97, 98]).2 1 1 (Or.inl rfl)
    (by intro h; exact absurd h.1 (by decide))

/-- C5 amended: with click state SelectingLines{from,to}, `click_move` at an
offset strictly below `from` extends the selection's left edge to the
line-begin at the new cursor but sets the cursor to the line-END at the new
cursor (not the line-begin); strictly above `to` it extends the right edge to
the line-end at the new cursor and sets the cursor there; otherwise it
restores the selection to exactly (from, to) and sets the cursor to `to`.
Except for the cursor destination in the first case, this matches the
SelectingWords logic with line scans substituted for word scans. -/
theorem C5_click_move_selecting_lines (s : EditboxState) (text : Buffer)
    (f t off : Nat) (hcs : s.click_state = ClickState.selectingLines (f, t))
    (hft : f ≤ t) (hoff : off ≤ text.length) (hlen : text.length < U32M) :
    (off < f →
      (click_move s text off).selection = some (off - find_line_begin off text, t) ∧
        (click_move s text off).cursor = off + find_line_end off text) ∧
    (t < off →
      (click_move s text off).selection = some (f, off + find_line_end off text) ∧
        (click_move s text off).cursor = off + find_line_end off text) ∧
    (f ≤ off → off ≤ t →
      (click_move s text off).selection = some (f, t) ∧
        (click_move s text off).cursor = t) := by
  have hmod : (off + find_line_end off text) % U32M = off + find_line_end off text :=
    Nat.mod_eq_of_lt (by have := find_line_end_le off text hoff hlen; omega)
  unfold click_move
  dsimp only
  by_cases hlc : off ≠ s.last_click
  · rw [if_pos hlc]
    dsimp only
    rw [hcs]
    dsimp only
    refine ⟨?_, ?_, ?_⟩
    · intro hbelow
      rw [if_pos hbelow]
      exact ⟨rfl, hmod⟩
    · intro habove
      rw [if_neg (by omega), if_pos habove]
      exact ⟨by rw [hmod], hmod⟩
    · intro h1 h2
      rw [if_neg (by omega), if_neg (by omega)]
      exact ⟨rfl, rfl⟩
  · rw [if_neg hlc]
    dsimp only
    rw [hcs]
    dsimp only
    refine ⟨?_, ?_, ?_⟩
    · intro hbelow
      rw [if_pos hbelow]
      exact ⟨rfl, hmod⟩
    · intro habove
      rw [if_neg (by omega), if_pos habove]
      exact ⟨by rw [hmod], hmod⟩
    · intro h1 h2
      rw [if_neg (by omega), if_neg (by omega)]
      exact ⟨rfl, rfl⟩

/-- Witness for C5 on "ab\ncd" with anchor lines (3,5), moving to offset 0:
the selection's left edge extends to the line-begin 0 and the cursor lands on
the line-end 2. -/
theorem C5_click_move_selecting_lines_witness :
    (0 < 3 →
      (click_move { stateAt 4 with click_state := ClickState.selectingLines (3, 5) }
          [97, 98, 10, 99, 100] 0).selection =
          some (0 - find_line_begin 0 [97, 98, 10, 99, 100], 5) ∧
        (click_move { stateAt 4 with click_state := ClickState.selectingLines (3, 5) }
          [97, 98, 10, 99, 100] 0).cursor =
          0 + find_line_end 0 [97, 98, 10, 99, 100]) ∧
    (5 < 0 →
      (click_move { stateAt 4 with click_state := ClickState.selectingLines (3, 5) }
          [97, 98, 10, 99, 100] 0).selection =
          some (3, 0 + find_line_end 0 [97, 98, 10, 99, 100]) ∧
        (click_move { stateAt 4 with click_state := ClickState.selectingLines (3, 5) }
          [97, 98, 10, 99, 100] 0).cursor =
          0 + find_line_end 0 [97, 98, 10, 99, 100]) ∧
    (3 ≤ 0 → 0 ≤ 5 →
      (click_move { stateAt 4 with click_state := ClickState.selectingLines (3, 5) }
          [97, 98, 10, 99, 100] 0).selection = some (3, 5) ∧
        (click_move { stateAt 4 with click_state := ClickState.selectingLines (3, 5) }
          [97, 98, 10, 99, 100] 0).cursor = 5) :=
  C5_click_move_selecting_lines
    { stateAt 4 with click_state := ClickState.selectingLines (3, 5) }
    [97, 98, 10, 99, 100] 3 5 0 rfl (by decide) (by decide) (by decide)

/-- C7 amended: starting from Idle or Settled with the cursor already at the
clicked offset, four clicks at that offset (the first not a repeat, each later
one within the 0.5 threshold of the previous) produce in order: a
character-selection session with selection (o,o); SelectingWords with the
word-scan range around o (which by the scan conventions starts at the
delimiter before the word and runs to the start of the following word);
SelectingLines with the line-scan range around o; then deselection (selection
None, state Idle), the counter reaching 3 so that the cycle restarts mod 3. -/
theorem C7_click_cycle (s : EditboxState) (text : Buffer) (o : Nat) (t1 t2 t3 t4 : ℚ)
    (hstate : s.click_state = ClickState.none ∨ s.click_state = ClickState.selected)
    (hfresh : ¬(s.last_click = o ∧ t1 - s.last_click_time < DOUBLE_CLICK_TIME))
    (hcur : s.cursor = o) (ho : o ≤ text.length) (hlen : text.length < U32M)
    (h12 : t2 - t1 < DOUBLE_CLICK_TIME) (h23 : t3 - t2 < DOUBLE_CLICK_TIME)
    (h34 : t4 - t3 < DOUBLE_CLICK_TIME) :
    (let s1 := click_down s t1 text o
     let s2 := click_down s1 t2 text o
     let s3 := click_down s2 t3 text o
     let s4 := click_down s3 t4 text o
     (s1.click_state = ClickState.selectingChars o ∧ s1.selection = some (o, o) ∧
        s1.clicks_counter = 0) ∧
     (s2.click_state = ClickState.selectingWords
          (o - find_word_begin text o, o + find_word_end text o) ∧
        s2.selection = some (o - find_word_begin text o, o + find_word_end text o) ∧
        s2.clicks_counter = 1) ∧
     (s3.click_state = ClickState.selectingLines
          (o - find_line_begin o text, o + find_line_end o text) ∧
        s3.selection = some (o - find_line_begin o text, o + find_line_end o text) ∧
        s3.clicks_counter = 2) ∧
     (s4.click_state = ClickState.none ∧ s4.selection = none ∧
        s4.clicks_counter = 3)) := by
  have hL : text.length % U32M = text.length := Nat.mod_eq_of_lt hlen
  have hmodw : (o + find_word_end text o) % U32M = o + find_word_end text o := by
    have h1 := find_word_end_le text o
    rw [hL] at h1
    exact Nat.mod_eq_of_lt (by omega)
  have hmodl : (o + find_line_end o text) % U32M = o + find_line_end o text :=
    Nat.mod_eq_of_lt (by have := find_line_end_le o text ho hlen; omega)
  dsimp only
  rw [click_down_fresh s t1 text o hfresh hstate]
  rw [click_down_repeat_word _ t2 text o ⟨rfl, h12⟩ (by norm_num [U32M])]
  rw [click_down_repeat_line _ t3 text o ⟨rfl, h23⟩ (by norm_num [U32M])]
  rw [click_down_repeat_deselect _ t4 text o ⟨rfl, h34⟩ (by norm_num [U32M])]
  dsimp only
  rw [hcur, hmodw, hmodl]
  refine ⟨⟨rfl, rfl, rfl⟩, ⟨rfl, rfl, by norm_num [U32M]⟩, ⟨rfl, rfl, by norm_num [U32M]⟩,
    rfl, rfl, by norm_num [U32M]⟩

/-- Witness for C7: four clicks at offset 3 of "ab cd" starting from the
default state with cursor 3. -/
theorem C7_click_cycle_witness :
    (let b : Buffer := [97, 98, 32, 99, 100]
     let s0 := stateAt 3
     let s1 := click_down s0 1 b 3
     let s2 := click_down s1 (11/10) b 3
     let s3 := click_down s2 (12/10) b 3
     let s4 := click_down s3 (13/10) b 3
     (s1.click_state = ClickState.selectingChars 3 ∧ s1.selection = some (3, 3) ∧
        s1.clicks_counter = 0) ∧
     (s2.click_state = ClickState.selectingWords
          (3 - find_word_begin b 3, 3 + find_word_end b 3) ∧
        s2.selection = some (3 - find_word_begin b 3, 3 + find_word_end b 3) ∧
        s2.clicks_counter = 1) ∧
     (s3.click_state = ClickState.selectingLines
          (3 - find_line_begin 3 b, 3 + find_line_end 3 b) ∧
        s3.selection = some (3 - find_line_begin 3 b, 3 + find_line_end 3 b) ∧
        s3.clicks_counter = 2) ∧
     (s4.click_state = ClickState.none ∧ s4.selection = none ∧
        s4.clicks_counter = 3)) :=
  C7_click_cycle (stateAt 3) [97, 98, 32, 99, 100] 3 1 (11/10) (12/10) (13/10)
    (Or.inl rfl) (by intro h; exact absurd h.1 (by decide)) rfl (by decide) (by decide)
    (by norm_num [DOUBLE_CLICK_TIME]) (by norm_num [DOUBLE_CLICK_TIME])
    (by norm_num [DOUBLE_CLICK_TIME])

theorem align_direction_if_eq (text : Buffer) (C : Nat) (dx : Int) :
    (if dx ≠ 0 then (if 0 < dx then alignForward text C else alignBackward text C)
      else C) =
    (if 0 < dx then alignForward text C
     else if dx < 0 then alignBackward text C else C) := by
  rcases lt_trichotomy dx 0 with h | h | h
  · rw [if_pos (by omega), if_neg (by omega), if_neg (by omega), if_pos h]
  · subst h
    rw [if_neg (by omega), if_neg (by omega), if_neg (by omega)]
  · rw [if_pos (by omega), if_pos h, if_pos h]

/-- The cursor produced by `move_cursor`: the delta is added only when the
result stays within [0, length], then the cursor is realigned by steps of
sign(delta). -/
theorem move_cursor_cursor_eq (s : EditboxState) (text : Buffer) (dx : Int)
    (shift : Bool) (h1 : s.cursor ≤ text.length) (h2 : text.length < I32H)
    (h3 : -(I32H : Int) ≤ dx) (h4 : dx < (I32H : Int)) :
    (move_cursor s text dx shift).cursor =
      (let target :=
        if 0 ≤ (s.cursor : Int) + dx ∧ (s.cursor : Int) + dx ≤ (text.length : Int)
        then ((s.cursor : Int) + dx).toNat else s.cursor
       if 0 < dx then alignForward text target
       else if dx < 0 then alignBackward text target
       else target) := by
  have hU : (U32M : Int) = 2 * (I32H : Int) := by unfold U32M I32H; rfl
  have hcI : u32AsI32 s.cursor = (s.cursor : Int) := u32AsI32_small _ (by omega)
  have hlI : u32AsI32 text.length = (text.length : Int) := u32AsI32_small _ h2
  unfold move_cursor
  dsimp only
  rw [hcI, hlI]
  by_cases hsum : (s.cursor : Int) + dx < (I32H : Int)
  · rw [i32Wrap_small _ (by omega) hsum]
    by_cases hin : (s.cursor : Int) + dx ≤ (text.length : Int) ∧ 0 ≤ (s.cursor : Int) + dx
    · rw [if_pos hin, i32AsU32_of_nonneg _ hin.2 (by rw [hU]; omega),
        if_pos (show (0 : Int) ≤ (s.cursor : Int) + dx ∧
          (s.cursor : Int) + dx ≤ (text.length : Int) from ⟨hin.2, hin.1⟩)]
      exact align_direction_if_eq text _ dx
    · rw [if_neg hin,
        if_neg (show ¬((0 : Int) ≤ (s.cursor : Int) + dx ∧
          (s.cursor : Int) + dx ≤ (text.length : Int)) from fun hc => hin ⟨hc.2, hc.1⟩)]
      exact align_direction_if_eq text _ dx
  · have hge : (I32H : Int) ≤ (s.cursor : Int) + dx := by omega
    rw [i32Wrap_high _ hge (by omega)]
    have hc1 : ¬((s.cursor : Int) + dx - (U32M : Int) ≤ (text.length : Int) ∧
        0 ≤ (s.cursor : Int) + dx - (U32M : Int)) := by
      rw [hU]
      intro hc
      omega
    have hc2 : ¬((0 : Int) ≤ (s.cursor : Int) + dx ∧
        (s.cursor : Int) + dx ≤ (text.length : Int)) := by
      intro hc
      have := hc.2
      omega
    rw [if_neg hc1, if_neg hc2]
    exact align_direction_if_eq text _ dx

/-- C3 amended: `move_cursor` adds the delta when the result stays within
[0, length] and otherwise leaves the cursor unchanged — it is NOT clamped to
the nearest end.  It then realigns by steps of sign(delta) until the cursor
lies on a scalar-value boundary. -/
theorem C3_move_cursor_amended (s : EditboxState) (text : Buffer) (dx : Int)
    (shift : Bool) (h1 : s.cursor ≤ text.length) (h2 : text.length < I32H)
    (h3 : -(I32H : Int) ≤ dx) (h4 : dx < (I32H : Int)) :
    (move_cursor s text dx shift).cursor =
      (let target :=
        if 0 ≤ (s.cursor : Int) + dx ∧ (s.cursor : Int) + dx ≤ (text.length : Int)
        then ((s.cursor : Int) + dx).toNat else s.cursor
       if 0 < dx then alignForward text target
       else if dx < 0 then alignBackward text target
       else target) :=
  move_cursor_cursor_eq s text dx shift h1 h2 h3 h4

/-- Witness for C3 amended: buffer "ab", cursor 1, delta -1. -/
theorem C3_move_cursor_amended_witness :
    (move_cursor (stateAt 1) [97, 98] (-1) false).cursor =
      (let target :=
        if 0 ≤ ((stateAt 1).cursor : Int) + (-1) ∧
            ((stateAt 1).cursor : Int) + (-1) ≤ (([97, 98] : Buffer).length : Int)
        then (((stateAt 1).cursor : Int) + (-1)).toNat else (stateAt 1).cursor
       if 0 < (-1 : Int) then alignForward [97, 98] target
       else if (-1 : Int) < 0 then alignBackward [97, 98] target
       else target) :=
  C3_move_cursor_amended (stateAt 1) [97, 98] (-1) false (by decide) (by decide)
    (by unfold I32H; omega) (by unfold I32H; omega)

/-! ### Splice lemmas: the buffer produced by string insertion -/

theorem take_len_eq (text : Buffer) (c : Nat) (hc : c ≤ text.length) :
    (text.take c).length = c := by
  simp only [List.length_take]
  omega

theorem splice_length (text mid : Buffer) (c : Nat) (hc : c ≤ text.length) :
    (text.take c ++ mid ++ text.drop c).length = text.length + mid.length := by
  simp only [List.length_append, List.length_take, List.length_drop]
  omega

theorem splice_take (text mid : Buffer) (c : Nat) (hc : c ≤ text.length) :
    (text.take c ++ mid ++ text.drop c).take c = text.take c := by
  rw [List.append_assoc, List.take_left' (take_len_eq text c hc)]

theorem splice_drop_at (text mid : Buffer) (c : Nat) (hc : c ≤ text.length) :
    (text.take c ++ mid ++ text.drop c).drop c = mid ++ text.drop c := by
  rw [List.append_assoc, List.drop_left' (take_len_eq text c hc)]

theorem splice_drop_end (text mid : Buffer) (c : Nat) (hc : c ≤ text.length) :
    (text.take c ++ mid ++ text.drop c).drop (c + mid.length) = text.drop c := by
  have h1 : (text.take c ++ mid ++ text.drop c).drop (c + mid.length) =
      ((text.take c ++ mid ++ text.drop c).drop c).drop mid.length := by
    rw [List.drop_drop]
  rw [h1, splice_drop_at text mid c hc, List.drop_left]

/-- At a char boundary strictly inside a valid buffer sits a lead byte. -/
theorem boundary_lead_at (text : Buffer) (c : Nat) (hv : validUtf8B text = true)
    (hb : isCharBoundary text c = true) (hcl : c < text.length) :
    text.getD c 0 < 128 ∨ 192 ≤ text.getD c 0 := by
  have hd := validUtf8B_drop_of_boundary c text hv hb
  have hne : text.drop c ≠ [] := by
    intro h
    have hl := congrArg List.length h
    simp only [List.length_drop, List.length_nil] at hl
    omega
  have hh := validUtf8B_head_lead (text.drop c) hd hne
  rwa [getD_drop_add text c 0, Nat.add_zero] at hh

/-- Gluing a valid sequence after a prefix of length `c` puts a boundary at
`c`. -/
theorem boundary_take_append (text rest : Buffer) (c : Nat) (hc : c ≤ text.length)
    (hrest : validUtf8B rest = true) :
    isCharBoundary (text.take c ++ rest) c = true := by
  have hlt : (text.take c).length = c := take_len_eq text c hc
  by_cases hr : rest = []
  · subst hr
    rw [List.append_nil]
    have h2 := isCharBoundary_len (text.take c)
    rwa [hlt] at h2
  · by_cases h0 : c = 0
    · subst h0
      exact isCharBoundary_zero _
    · have hlen2 : c < (text.take c ++ rest).length := by
        simp only [List.length_append, hlt]
        have := List.length_pos.mpr hr
        omega
      rw [isCharBoundary_mid _ c h0 hlen2]
      have hbyte : (text.take c ++ rest).getD c 0 = rest.getD 0 0 := by
        rw [List.getD_append_right _ _ _ _ (by omega : (text.take c).length ≤ c), hlt,
          Nat.sub_self]
      rw [hbyte]
      simp only [decide_eq_true_eq]
      exact validUtf8B_head_lead rest hrest hr

/-- A splice of `mid` into a valid buffer at a boundary `c` has a boundary at
`c + mid.length` (the byte there is the old byte at `c`, a lead byte). -/
theorem isCharBoundary_splice_end (text mid : Buffer) (c : Nat) (hc : c ≤ text.length)
    (hv : validUtf8B text = true) (hb : isCharBoundary text c = true) :
    isCharBoundary (text.take c ++ mid ++ text.drop c) (c + mid.length) = true := by
  have hlt : (text.take c).length = c := take_len_eq text c hc
  by_cases hcl : c < text.length
  · by_cases hz : c + mid.length = 0
    · rw [hz]
      exact isCharBoundary_zero _
    · have hpos : c + mid.length < (text.take c ++ mid ++ text.drop c).length := by
        rw [splice_length text mid c hc]
        omega
      rw [isCharBoundary_mid _ _ hz hpos]
      have hbyte : (text.take c ++ mid ++ text.drop c).getD (c + mid.length) 0 =
          text.getD c 0 := by
        rw [List.append_assoc, List.getD_append_right _ _ _ _ (by omega : (text.take c).length ≤ c + mid.length),
          hlt, show c + mid.length - c = mid.length from by omega,
          List.getD_append_right _ _ _ _ (le_refl mid.length), Nat.sub_self,
          getD_drop_add, Nat.add_zero]
      rw [hbyte]
      simp only [decide_eq_true_eq]
      exact boundary_lead_at text c hv hb hcl
  · have hce : c = text.length := by omega
    have hend : c + mid.length = (text.take c ++ mid ++ text.drop c).length := by
      rw [splice_length text mid c hc]
      omega
    rw [hend]
    exact isCharBoundary_len _

/-- A splice of a nonempty sequence with a lead head byte has a boundary at
the insertion point `c`. -/
theorem isCharBoundary_splice_start (text mid : Buffer) (c : Nat)
    (hc : c ≤ text.length) (hmid : mid ≠ [])
    (hlead : mid.getD 0 0 < 128 ∨ 192 ≤ mid.getD 0 0) :
    isCharBoundary (text.take c ++ mid ++ text.drop c) c = true := by
  have hlt : (text.take c).length = c := take_len_eq text c hc
  by_cases h0 : c = 0
  · subst h0
    exact isCharBoundary_zero _
  · have hlen2 : c < (text.take c ++ mid ++ text.drop c).length := by
      rw [splice_length text mid c hc]
      have := List.length_pos.mpr hmid
      omega
    rw [isCharBoundary_mid _ c h0 hlen2]
    have hbyte : (text.take c ++ mid ++ text.drop c).getD c 0 = mid.getD 0 0 := by
      rw [List.append_assoc, List.getD_append_right _ _ _ _ (by omega : (text.take c).length ≤ c),
        hlt, Nat.sub_self, List.getD_append _ _ _ _ (List.length_pos.mpr hmid)]
    rw [hbyte]
    simp only [decide_eq_true_eq]
    exact hlead

/-- Validity is preserved by splicing a valid sequence at a boundary. -/
theorem validUtf8B_splice (text mid : Buffer) (c : Nat)
    (hv : validUtf8B text = true) (hb : isCharBoundary text c = true)
    (hmid : validUtf8B mid = true) :
    validUtf8B (text.take c ++ mid ++ text.drop c) = true := by
  have hc : c ≤ text.length := isCharBoundary_true_le text c hb
  exact validUtf8B_append _ _
    (validUtf8B_append _ _ (validUtf8B_take_of_boundary c text hv hb) hmid)
    (validUtf8B_drop_of_boundary c text hv hb)

/-! ### The cursor invariant (claim C9) -/

/-- The cursor invariant: at most the buffer length and on a char boundary. -/
def cursorInv (s : EditboxState) (text : Buffer) : Prop :=
  s.cursor ≤ text.length ∧ isCharBoundary text s.cursor = true

theorem utf8Len_le_four (c : Nat) : utf8Len c ≤ 4 := by
  unfold utf8Len
  split
  · omega
  · split
    · omega
    · split <;> omega

theorem I32H_lt_U32M : I32H < U32M := by
  unfold I32H U32M
  omega

theorem move_cursor_inv (s : EditboxState) (text : Buffer) (dx : Int) (shift : Bool)
    (hlen : text.length < I32H) (hc : s.cursor ≤ text.length)
    (hb : isCharBoundary text s.cursor = true) (h3 : -(I32H : Int) ≤ dx)
    (h4 : dx < (I32H : Int)) : cursorInv (move_cursor s text dx shift) text := by
  have hU := I32H_lt_U32M
  unfold cursorInv
  rw [move_cursor_cursor_eq s text dx shift hc hlen h3 h4]
  dsimp only
  have htle : (if 0 ≤ (s.cursor : Int) + dx ∧ (s.cursor : Int) + dx ≤ (text.length : Int)
      then ((s.cursor : Int) + dx).toNat else s.cursor) ≤ text.length := by
    split
    · next hcond => omega
    · exact hc
  rcases lt_trichotomy dx 0 with hdx | hdx | hdx
  · rw [if_neg (by omega), if_pos hdx]
    obtain ⟨ha, hbb⟩ := alignBackward_bounds text _
    exact ⟨le_trans ha htle, hbb⟩
  · subst hdx
    rw [if_neg (by omega), if_neg (by omega)]
    have hcond : (0 : Int) ≤ (s.cursor : Int) + 0 ∧
        (s.cursor : Int) + 0 ≤ (text.length : Int) := by omega
    rw [if_pos hcond, show ((s.cursor : Int) + 0).toNat = s.cursor from by omega]
    exact ⟨hc, hb⟩
  · rw [if_pos hdx]
    obtain ⟨ha, hbb⟩ := alignForward_bounds text _ htle (by omega)
    exact ⟨ha, hbb⟩

theorem insert_character_inv (s : EditboxState) (text : Buffer) (ch : Nat)
    (hlen : text.length < I32H) (hc : s.cursor ≤ text.length) (s2 : EditboxState)
    (t2 : Buffer) (h : insert_character s text ch = some (s2, t2)) : cursorInv s2 t2 := by
  have hU := I32H_lt_U32M
  have hel : (utf8Encode ch).length = utf8Len ch := utf8Encode_length ch
  have he1 := utf8Len_pos ch
  have he4 := utf8Len_le_four ch
  unfold insert_character Command.apply at h
  dsimp only at h
  rw [if_pos hc] at h
  unfold stringInsert at h
  by_cases hbb : isCharBoundary text s.cursor = true
  · rw [if_pos hbb] at h
    have hsl : (text.take s.cursor ++ utf8Encode ch ++ text.drop s.cursor).length =
        text.length + utf8Len ch := by
      rw [splice_length text _ s.cursor hc, hel]
    simp only [Option.bind_eq_bind, Option.some_bind', Option.some.injEq,
      Prod.mk.injEq] at h
    obtain ⟨h1, h2⟩ := h
    subst h1
    subst h2
    have hmod : (s.cursor + 1) % U32M = s.cursor + 1 :=
      Nat.mod_eq_of_lt (by unfold I32H U32M at *; omega)
    obtain ⟨ha, hab⟩ := alignForward_bounds (text.take s.cursor ++ utf8Encode ch ++
        text.drop s.cursor) ((s.cursor + 1) % U32M)
      (by rw [hmod, hsl]; omega) (by rw [hsl]; unfold I32H U32M at *; omega)
    exact ⟨ha, hab⟩
  · rw [if_neg hbb] at h
    simp at h

theorem insert_string_inv (s : EditboxState) (text : Buffer) (d : List Nat)
    (hv : validUtf8B text = true) (hsz : text.length + d.length < U32M)
    (hc : s.cursor ≤ text.length) (hb : isCharBoundary text s.cursor = true)
    (s2 : EditboxState) (t2 : Buffer) (h : insert_string s text d = some (s2, t2)) :
    cursorInv s2 t2 := by
  unfold insert_string Command.apply at h
  dsimp only at h
  rw [if_pos hc] at h
  unfold stringInsert at h
  rw [if_pos hb] at h
  simp only [Option.bind_eq_bind, Option.some_bind', Option.some.injEq,
    Prod.mk.injEq] at h
  obtain ⟨h1, h2⟩ := h
  subst h1
  subst h2
  have hsl : (text.take s.cursor ++ d ++ text.drop s.cursor).length =
      text.length + d.length := splice_length text d s.cursor hc
  have hmod : (s.cursor + d.length) % U32M = s.cursor + d.length :=
    Nat.mod_eq_of_lt (by omega)
  constructor
  · show (s.cursor + d.length) % U32M ≤ _
    rw [hmod, hsl]
    omega
  · show isCharBoundary _ ((s.cursor + d.length) % U32M) = true
    rw [hmod]
    exact isCharBoundary_splice_end text d s.cursor hc hv hb

theorem delete_next_character_inv (s : EditboxState) (text : Buffer)
    (hv : validUtf8B text = true) (hc : s.cursor ≤ text.length)
    (hb : isCharBoundary text s.cursor = true) (s2 : EditboxState) (t2 : Buffer)
    (h : delete_next_character s text = some (s2, t2)) : cursorInv s2 t2 := by
  unfold delete_next_character at h
  dsimp only at h
  by_cases hg : s.cursor < text.length ∧ isCharBoundary text s.cursor = true
  · have hvd : validUtf8B (text.drop s.cursor) = true :=
      validUtf8B_drop_of_boundary s.cursor text hv hb
    have hne : text.drop s.cursor ≠ [] := by
      intro hx
      have hl := congrArg List.length hx
      simp only [List.length_drop, List.length_nil] at hl
      omega
    obtain ⟨c0, k, hd, hvk⟩ := validUtf8B_decode (text.drop s.cursor) hvd hne
    obtain ⟨-, -, hk1, hk2⟩ := utf8DecodeFirst_some _ c0 k hd
    rw [List.length_drop] at hk2
    have hnew : DeleteCharacter_new { s with redo_stack := [] } text =
        some (Command.deleteCharacter c0 s.cursor) := by
      unfold DeleteCharacter_new
      dsimp only
      rw [if_pos hg, hd]
    rw [hnew] at h
    have happ : (Command.deleteCharacter c0 s.cursor).apply s.cursor text =
        some (s.cursor, text.take s.cursor ++ text.drop (s.cursor + k)) := by
      unfold Command.apply
      dsimp only
      rw [if_pos hg.1]
      unfold stringRemove
      rw [if_pos ⟨hg.1, hg.2⟩, hd]
    dsimp only at h
    rw [happ] at h
    simp only [Option.bind_eq_bind, Option.some_bind', Option.some.injEq,
      Prod.mk.injEq] at h
    obtain ⟨h1, h2⟩ := h
    subst h1
    subst h2
    constructor
    · show s.cursor ≤ _
      rw [List.length_append, take_len_eq text s.cursor hc, List.length_drop]
      omega
    · show isCharBoundary _ s.cursor = true
      have hvk2 : validUtf8B (text.drop (s.cursor + k)) = true := by
        have hdd : (text.drop s.cursor).drop k = text.drop (s.cursor + k) := by
          rw [List.drop_drop]
        rwa [hdd] at hvk
      exact boundary_take_append text (text.drop (s.cursor + k)) s.cursor hc hvk2
  · have hnone : DeleteCharacter_new { s with redo_stack := [] } text = none := by
      unfold DeleteCharacter_new
      dsimp only
      rw [if_neg hg]
    rw [hnone] at h
    simp only [Option.some.injEq, Prod.mk.injEq] at h
    obtain ⟨h1, h2⟩ := h
    subst h1
    subst h2
    exact ⟨hc, hb⟩

theorem delete_current_character_inv (s : EditboxState) (text : Buffer)
    (hv : validUtf8B text = true) (hc : s.cursor ≤ text.length)
    (hb : isCharBoundary text s.cursor = true) (s2 : EditboxState) (t2 : Buffer)
    (h : delete_current_character s text = some (s2, t2)) : cursorInv s2 t2 := by
  unfold delete_current_character at h
  by_cases h0 : 0 < s.cursor
  · rw [if_pos h0] at h
    obtain ⟨ha, hab⟩ := alignBackward_bounds text (s.cursor - 1)
    exact delete_next_character_inv _ text hv (by dsimp only; omega) hab s2 t2 h
  · rw [if_neg h0] at h
    simp only [Option.some.injEq, Prod.mk.injEq] at h
    obtain ⟨h1, h2⟩ := h
    subst h1
    subst h2
    exact ⟨hc, hb⟩

/-- C9: from a state whose cursor is within the (valid UTF-8) buffer and on a
scalar-value boundary, `move_cursor` with any `i32` delta keeps the cursor
within the buffer and on a boundary, and so do `insert_character`,
`insert_string`, `delete_next_character` and `delete_current_character`
whenever they return (the buffer-length side conditions keep the 32-bit
arithmetic of the source exact). -/
theorem C9_cursor_boundary_invariant (s : EditboxState) (text : Buffer)
    (hv : validUtf8B text = true) (hlen : text.length < I32H)
    (hc : s.cursor ≤ text.length) (hb : isCharBoundary text s.cursor = true) :
    (∀ (dx : Int) (shift : Bool), -(I32H : Int) ≤ dx → dx < (I32H : Int) →
      cursorInv (move_cursor s text dx shift) text) ∧
    (∀ ch s2 t2, insert_character s text ch = some (s2, t2) → cursorInv s2 t2) ∧
    (∀ d s2 t2, text.length + d.length < U32M →
      insert_string s text d = some (s2, t2) → cursorInv s2 t2) ∧
    (∀ s2 t2, delete_next_character s text = some (s2, t2) → cursorInv s2 t2) ∧
    (∀ s2 t2, delete_current_character s text = some (s2, t2) → cursorInv s2 t2) :=
  ⟨fun dx shift h3 h4 => move_cursor_inv s text dx shift hlen hc hb h3 h4,
   fun ch s2 t2 h => insert_character_inv s text ch hlen hc s2 t2 h,
   fun d s2 t2 hsz h => insert_string_inv s text d hv hsz hc hb s2 t2 h,
   fun s2 t2 h => delete_next_character_inv s text hv hc hb s2 t2 h,
   fun s2 t2 h => delete_current_character_inv s text hv hc hb s2 t2 h⟩

/-- Witness for C9 at the one-byte buffer "a" with cursor 0. -/
theorem C9_cursor_boundary_invariant_witness :
    validUtf8B [97] = true ∧ (stateAt 0).cursor ≤ ([97] : Buffer).length ∧
    ((∀ (dx : Int) (shift : Bool), -(I32H : Int) ≤ dx → dx < (I32H : Int) →
        cursorInv (move_cursor (stateAt 0) [97] dx shift) [97]) ∧
      (∀ ch s2 t2, insert_character (stateAt 0) [97] ch = some (s2, t2) →
        cursorInv s2 t2) ∧
      (∀ d s2 t2, ([97] : Buffer).length + d.length < U32M →
        insert_string (stateAt 0) [97] d = some (s2, t2) → cursorInv s2 t2) ∧
      (∀ s2 t2, delete_next_character (stateAt 0) [97] = some (s2, t2) →
        cursorInv s2 t2) ∧
      (∀ s2 t2, delete_current_character (stateAt 0) [97] = some (s2, t2) →
        cursorInv s2 t2)) :=
  ⟨by decide, by decide,
    C9_cursor_boundary_invariant (stateAt 0) [97] (by decide) (by decide) (by decide)
      (by decide)⟩

/-! ### Claim C1: operation sequences and undo -/

/-- The insert/delete operations of claim C1, with their payloads. -/
inductive Op
  | insertChar (character : Nat)
  | insertStr (data : List Nat)
  | deleteSelected
  | deleteNext
  | deleteCurrent
deriving DecidableEq

/-- Run one operation. -/
def applyOp : Op → EditboxState → Buffer → Option (EditboxState × Buffer)
  | .insertChar c, s, b => insert_character s b c
  | .insertStr d, s, b => insert_string s b d
  | .deleteSelected, s, b => delete_selected s b
  | .deleteNext, s, b => delete_next_character s b
  | .deleteCurrent, s, b => delete_current_character s b

/-- Run a sequence of operations. -/
def applyOps : List Op → EditboxState → Buffer → Option (EditboxState × Buffer)
  | [], s, b => some (s, b)
  | op :: ops, s, b => do
    let (s1, b1) ← applyOp op s b
    applyOps ops s1 b1

/-- Iterate `undo`. -/
def undoN : Nat → EditboxState → Buffer → Option (EditboxState × Buffer)
  | 0, s, b => some (s, b)
  | n + 1, s, b => do
    let (s1, b1) ← undo s b
    undoN n s1 b1

/-- The cursor a command's `unapply` sets, which never depends on the incoming
cursor. -/
def unapplyCursor : Command → Nat
  | .insertCharacter _ c => c
  | .insertString _ c => c
  | .deleteCharacter _ c => (c + 1) % U32M
  | .deleteRange (a, b) _ => min a b

/-- Well-formedness of an operation's payload, guaranteed by the Rust types:
a `char` is a valid scalar value, a `&str` is valid UTF-8. -/
def opWF : Op → Bool
  | .insertChar c => validScalarB c
  | .insertStr d => validUtf8B d
  | _ => true

def isInsertOp : Op → Bool
  | .insertChar _ => true
  | .insertStr _ => true
  | _ => false

/-- Unwinding a list of commands from a buffer: each `unapply` succeeds
(whatever the incoming cursor), they chain down to the target buffer, and the
final cursor is the last popped command's unapply cursor (or the incoming
cursor when nothing is popped). -/
inductive Unwinds : List Command → Nat → Buffer → Nat → Buffer → Prop
  | nil (c : Nat) (b : Buffer) : Unwinds [] c b c b
  | cons {cmd : Command} {cs : List Command} {cIn : Nat} {bCur bMid bOut : Buffer}
      {cOut : Nat}
      (hstep : ∀ cur : Nat, cmd.unapply cur bCur = some (unapplyCursor cmd, bMid))
      (hrest : Unwinds cs (unapplyCursor cmd) bMid cOut bOut) :
      Unwinds (cmd :: cs) cIn bCur cOut bOut

theorem Unwinds_append_one {cs : List Command} {cIn : Nat} {b1 bm : Buffer} {cOut : Nat}
    (hu : Unwinds cs cIn b1 cOut bm) {cmd : Command} {b0 : Buffer}
    (hstep : ∀ cur, cmd.unapply cur bm = some (unapplyCursor cmd, b0)) :
    Unwinds (cs ++ [cmd]) cIn b1 (unapplyCursor cmd) b0 := by
  induction hu with
  | nil c b => exact Unwinds.cons hstep (Unwinds.nil _ _)
  | cons hstep2 hrest ih => exact Unwinds.cons hstep2 (ih hstep)

theorem undoN_empty (n : Nat) (s : EditboxState) (b : Buffer)
    (h : s.undo_stack = []) : undoN n s b = some (s, b) := by
  induction n with
  | zero => rfl
  | succ n ih =>
    show (do
      let (s1, b1) ← undo s b
      undoN n s1 b1) = some (s, b)
    unfold undo
    rw [h]
    dsimp only
    rw [Option.bind_eq_bind, Option.some_bind']
    exact ih

/-- The encoding of a valid scalar is itself valid UTF-8. -/
theorem validUtf8B_encode (c : Nat) (h : validScalarB c = true) :
    validUtf8B (utf8Encode c) = true := by
  have h2 := validUtf8B_cons_char c [] h validUtf8B_nil
  rwa [List.append_nil] at h2

/-- Cutting a boundary-delimited slice out of a buffer leaves a boundary at
the cut (the byte after the cut was at a boundary). -/
theorem boundary_take_append_of_boundary (text : Buffer) (c e : Nat)
    (hc : c ≤ text.length) (hce : c ≤ e) (he : isCharBoundary text e = true) :
    isCharBoundary (text.take c ++ text.drop e) c = true := by
  have hel : e ≤ text.length := isCharBoundary_true_le text e he
  have hlt : (text.take c).length = c := take_len_eq text c hc
  by_cases h0 : c = 0
  · subst h0
    exact isCharBoundary_zero _
  · by_cases hee : e < text.length
    · have hlen2 : c < (text.take c ++ text.drop e).length := by
        simp only [List.length_append, hlt, List.length_drop]
        omega
      rw [isCharBoundary_mid _ c h0 hlen2]
      have hbyte : (text.take c ++ text.drop e).getD c 0 = text.getD e 0 := by
        rw [List.getD_append_right _ _ _ _ (by omega : (text.take c).length ≤ c), hlt,
          Nat.sub_self, getD_drop_add, Nat.add_zero]
      rw [hbyte]
      have hee0 : e ≠ 0 := by omega
      rw [isCharBoundary_mid text e hee0 hee] at he
      exact he
    · have hee2 : e = text.length := by omega
      subst hee2
      rw [List.drop_length, List.append_nil]
      have h2 := isCharBoundary_len (text.take c)
      rwa [hlt] at h2

/-- One `insert_character` pushes its command, whose `unapply` then restores
the previous buffer from any cursor, landing on the recorded cursor. -/
theorem applyOp_step_insertChar (ch : Nat) (s : EditboxState) (b : Buffer)
    (s1 : EditboxState) (b1 : Buffer) (hch : validScalarB ch = true)
    (hv : validUtf8B b = true) (h : insert_character s b ch = some (s1, b1)) :
    validUtf8B b1 = true ∧
    s1.undo_stack = Command.insertCharacter ch s.cursor :: s.undo_stack ∧
    ∀ cur, (Command.insertCharacter ch s.cursor).unapply cur b1 = some (s.cursor, b) := by
  have hel : (utf8Encode ch).length = utf8Len ch := utf8Encode_length ch
  have he1 := utf8Len_pos ch
  have hene : utf8Encode ch ≠ [] := by
    intro hx
    have h2 := congrArg List.length hx
    rw [hel] at h2
    simp only [List.length_nil] at h2
    omega
  unfold insert_character Command.apply at h
  dsimp only at h
  by_cases hcl : s.cursor ≤ b.length
  · rw [if_pos hcl] at h
    unfold stringInsert at h
    by_cases hbb : isCharBoundary b s.cursor = true
    · rw [if_pos hbb] at h
      simp only [Option.bind_eq_bind, Option.some_bind', Option.some.injEq,
        Prod.mk.injEq] at h
      obtain ⟨h1, h2⟩ := h
      subst h1
      subst h2
      refine ⟨validUtf8B_splice b (utf8Encode ch) s.cursor hv hbb
        (validUtf8B_encode ch hch), rfl, ?_⟩
      intro cur
      have hsl : (b.take s.cursor ++ utf8Encode ch ++ b.drop s.cursor).length =
          b.length + utf8Len ch := by
        rw [splice_length b _ s.cursor hcl, hel]
      have hrem : stringRemove (b.take s.cursor ++ utf8Encode ch ++ b.drop s.cursor)
          s.cursor = some (ch, b) := by
        unfold stringRemove
        rw [if_pos ⟨by omega, isCharBoundary_splice_start b (utf8Encode ch) s.cursor hcl
          hene (utf8Encode_getD_head ch)⟩]
        rw [splice_drop_at b _ s.cursor hcl, utf8DecodeFirst_encode ch _ hch]
        dsimp only
        rw [splice_take b _ s.cursor hcl, ← hel, splice_drop_end b _ s.cursor hcl,
          List.take_append_drop]
      unfold Command.unapply
      dsimp only
      rw [if_pos (show s.cursor <
        (b.take s.cursor ++ utf8Encode ch ++ b.drop s.cursor).length from by
          rw [hsl]; omega)]
      rw [hrem]
    · rw [if_neg hbb] at h
      simp at h
  · rw [if_neg hcl] at h
    simp only [Option.bind_eq_bind, Option.some_bind', Option.some.injEq,
      Prod.mk.injEq] at h
    obtain ⟨h1, h2⟩ := h
    subst h1
    subst h2
    refine ⟨hv, rfl, ?_⟩
    intro cur
    unfold Command.unapply
    dsimp only
    rw [if_neg (show ¬(s.cursor < b.length) from by omega)]

/-- One `insert_string` pushes its command, whose `unapply` then restores the
previous buffer from any cursor, landing on the recorded cursor. -/
theorem applyOp_step_insertStr (d : List Nat) (s : EditboxState) (b : Buffer)
    (s1 : EditboxState) (b1 : Buffer) (hd : validUtf8B d = true)
    (hv : validUtf8B b = true) (h : insert_string s b d = some (s1, b1)) :
    validUtf8B b1 = true ∧
    s1.undo_stack = Command.insertString d s.cursor :: s.undo_stack ∧
    ∀ cur, (Command.insertString d s.cursor).unapply cur b1 = some (s.cursor, b) := by
  unfold insert_string Command.apply at h
  dsimp only at h
  by_cases hcl : s.cursor ≤ b.length
  · rw [if_pos hcl] at h
    unfold stringInsert at h
    by_cases hbb : isCharBoundary b s.cursor = true
    · rw [if_pos hbb] at h
      simp only [Option.bind_eq_bind, Option.some_bind', Option.some.injEq,
        Prod.mk.injEq] at h
      obtain ⟨h1, h2⟩ := h
      subst h1
      subst h2
      by_cases hd0 : d = []
      · subst hd0
        have hbb1 : b.take s.cursor ++ [] ++ b.drop s.cursor = b := by
          rw [List.append_nil, List.take_append_drop]
        rw [hbb1]
        refine ⟨hv, rfl, ?_⟩
        intro cur
        unfold Command.unapply
        dsimp only
        by_cases hcc : s.cursor < b.length
        · rw [if_pos hcc]
          have hrep : replaceRange b s.cursor
              (min (s.cursor + ([] : List Nat).length) b.length) = some b := by
            unfold replaceRange
            rw [show min (s.cursor + ([] : List Nat).length) b.length = s.cursor from by
              simp only [List.length_nil]; omega]
            rw [if_pos ⟨le_refl _, hbb, hbb⟩, List.take_append_drop]
          rw [hrep]
        · rw [if_neg hcc]
      · have hdl : 0 < d.length := List.length_pos.mpr hd0
        have hsl : (b.take s.cursor ++ d ++ b.drop s.cursor).length =
            b.length + d.length := splice_length b d s.cursor hcl
        refine ⟨validUtf8B_splice b d s.cursor hv hbb hd, rfl, ?_⟩
        intro cur
        unfold Command.unapply
        dsimp only
        rw [if_pos (show s.cursor < (b.take s.cursor ++ d ++ b.drop s.cursor).length from
          by rw [hsl]; omega)]
        have hrep : replaceRange (b.take s.cursor ++ d ++ b.drop s.cursor) s.cursor
            (min (s.cursor + d.length)
              (b.take s.cursor ++ d ++ b.drop s.cursor).length) = some b := by
          rw [show min (s.cursor + d.length)
              (b.take s.cursor ++ d ++ b.drop s.cursor).length = s.cursor + d.length from
            by rw [hsl]; omega]
          unfold replaceRange
          rw [if_pos ⟨by omega,
            isCharBoundary_splice_start b d s.cursor hcl hd0
              (validUtf8B_head_lead d hd hd0),
            isCharBoundary_splice_end b d s.cursor hcl hv hbb⟩]
          rw [splice_take b d s.cursor hcl, splice_drop_end b d s.cursor hcl,
            List.take_append_drop]
        rw [hrep]
    · rw [if_neg hbb] at h
      simp at h
  · rw [if_neg hcl] at h
    simp only [Option.bind_eq_bind, Option.some_bind', Option.some.injEq,
      Prod.mk.injEq] at h
    obtain ⟨h1, h2⟩ := h
    subst h1
    subst h2
    refine ⟨hv, rfl, ?_⟩
    intro cur
    unfold Command.unapply
    dsimp only
    rw [if_neg (show ¬(s.cursor < b.length) from by omega)]

/-- One `delete_next_character` either leaves the stack and buffer alone or
pushes a `DeleteCharacter` command whose `unapply` restores the previous
buffer from any cursor. -/
theorem applyOp_step_deleteNext (s : EditboxState) (b : Buffer) (s1 : EditboxState)
    (b1 : Buffer) (hv : validUtf8B b = true)
    (h : delete_next_character s b = some (s1, b1)) :
    validUtf8B b1 = true ∧
    ((s1.undo_stack = s.undo_stack ∧ b1 = b) ∨
      ∃ c0, s1.undo_stack = Command.deleteCharacter c0 s.cursor :: s.undo_stack ∧
        ∀ cur, (Command.deleteCharacter c0 s.cursor).unapply cur b1 =
          some ((s.cursor + 1) % U32M, b)) := by
  unfold delete_next_character at h
  dsimp only at h
  by_cases hg : s.cursor < b.length ∧ isCharBoundary b s.cursor = true
  · have hc : s.cursor ≤ b.length := le_of_lt hg.1
    have hvd : validUtf8B (b.drop s.cursor) = true :=
      validUtf8B_drop_of_boundary s.cursor b hv hg.2
    have hne : b.drop s.cursor ≠ [] := by
      intro hx
      have hl := congrArg List.length hx
      simp only [List.length_drop, List.length_nil] at hl
      omega
    obtain ⟨c0, k, hd, hvk⟩ := validUtf8B_decode (b.drop s.cursor) hvd hne
    obtain ⟨htake, hval, hk1, hk2⟩ := utf8DecodeFirst_some _ c0 k hd
    rw [List.length_drop] at hk2
    have hvk2 : validUtf8B (b.drop (s.cursor + k)) = true := by
      have hdd : (b.drop s.cursor).drop k = b.drop (s.cursor + k) := by
        rw [List.drop_drop, Nat.add_comm]
      rwa [hdd] at hvk
    have hnew : DeleteCharacter_new { s with redo_stack := [] } b =
        some (Command.deleteCharacter c0 s.cursor) := by
      unfold DeleteCharacter_new
      dsimp only
      rw [if_pos hg, hd]
    rw [hnew] at h
    have happ : (Command.deleteCharacter c0 s.cursor).apply s.cursor b =
        some (s.cursor, b.take s.cursor ++ b.drop (s.cursor + k)) := by
      unfold Command.apply
      dsimp only
      rw [if_pos hg.1]
      unfold stringRemove
      rw [if_pos ⟨hg.1, hg.2⟩, hd]
    dsimp only at h
    rw [happ] at h
    simp only [Option.bind_eq_bind, Option.some_bind', Option.some.injEq,
      Prod.mk.injEq] at h
    obtain ⟨h1, h2⟩ := h
    subst h1
    subst h2
    have hlb1 : (b.take s.cursor ++ b.drop (s.cursor + k)).length =
        s.cursor + (b.length - (s.cursor + k)) := by
      rw [List.length_append, take_len_eq b s.cursor hc, List.length_drop]
    refine ⟨validUtf8B_append _ _
        (validUtf8B_take_of_boundary s.cursor b hv hg.2) hvk2, Or.inr ⟨c0, rfl, ?_⟩⟩
    intro cur
    unfold Command.unapply
    dsimp only
    rw [if_pos (show s.cursor ≤ (b.take s.cursor ++ b.drop (s.cursor + k)).length from
      by rw [hlb1]; omega)]
    have hins : stringInsert (b.take s.cursor ++ b.drop (s.cursor + k)) s.cursor
        (utf8Encode c0) = some b := by
      unfold stringInsert
      rw [if_pos (boundary_take_append b (b.drop (s.cursor + k)) s.cursor hc hvk2)]
      rw [List.take_left' (take_len_eq b s.cursor hc),
        List.drop_left' (take_len_eq b s.cursor hc), ← htake,
        show b.drop (s.cursor + k) = (b.drop s.cursor).drop k from by
          rw [List.drop_drop, Nat.add_comm],
        List.append_assoc, List.take_append_drop, List.take_append_drop]
    rw [hins]
  · have hnone : DeleteCharacter_new { s with redo_stack := [] } b = none := by
      unfold DeleteCharacter_new
      dsimp only
      rw [if_neg hg]
    rw [hnone] at h
    simp only [Option.some.injEq, Prod.mk.injEq] at h
    obtain ⟨h1, h2⟩ := h
    subst h1
    subst h2
    exact ⟨hv, Or.inl ⟨rfl, rfl⟩⟩

/-- One `delete_current_character` either leaves the stack and buffer alone or
pushes a `DeleteCharacter` command whose `unapply` restores the previous
buffer from any cursor. -/
theorem applyOp_step_deleteCurrent (s : EditboxState) (b : Buffer) (s1 : EditboxState)
    (b1 : Buffer) (hv : validUtf8B b = true)
    (h : delete_current_character s b = some (s1, b1)) :
    validUtf8B b1 = true ∧
    ((s1.undo_stack = s.undo_stack ∧ b1 = b) ∨
      ∃ c0 c1, s1.undo_stack = Command.deleteCharacter c0 c1 :: s.undo_stack ∧
        ∀ cur, (Command.deleteCharacter c0 c1).unapply cur b1 =
          some ((c1 + 1) % U32M, b)) := by
  unfold delete_current_character at h
  by_cases h0 : 0 < s.cursor
  · rw [if_pos h0] at h
    obtain ⟨hok, hstep⟩ := applyOp_step_deleteNext _ b s1 b1 hv h
    refine ⟨hok, ?_⟩
    rcases hstep with ⟨hst, hbb⟩ | ⟨c0, hst, hun⟩
    · exact Or.inl ⟨hst, hbb⟩
    · exact Or.inr ⟨c0, alignBackward b (s.cursor - 1), hst, hun⟩
  · rw [if_neg h0] at h
    simp only [Option.some.injEq, Prod.mk.injEq] at h
    obtain ⟨h1, h2⟩ := h
    subst h1
    subst h2
    exact ⟨hv, Or.inl ⟨rfl, rfl⟩⟩

/-- One `delete_selected` either leaves the stack and buffer alone or pushes a
`DeleteRange` command whose `unapply` restores the previous buffer from any
cursor, landing at the range minimum. -/
theorem applyOp_step_deleteSelected (s : EditboxState) (b : Buffer) (s1 : EditboxState)
    (b1 : Buffer) (hv : validUtf8B b = true) (h : delete_selected s b = some (s1, b1)) :
    validUtf8B b1 = true ∧
    ((s1.undo_stack = s.undo_stack ∧ b1 = b) ∨
      ∃ r d, s1.undo_stack = Command.deleteRange r d :: s.undo_stack ∧
        ∀ cur, (Command.deleteRange r d).unapply cur b1 =
          some (min r.1 r.2, b)) := by
  unfold delete_selected at h
  dsimp only at h
  cases hsel : s.selection with
  | none =>
    rw [hsel] at h
    dsimp only at h
    simp only [Option.some.injEq, Prod.mk.injEq] at h
    obtain ⟨h1, h2⟩ := h
    subst h1
    subst h2
    exact ⟨hv, Or.inl ⟨rfl, rfl⟩⟩
  | some r =>
    obtain ⟨a, bb⟩ := r
    rw [hsel] at h
    dsimp only at h
    by_cases hg : min a bb ≤ max a bb ∧ isCharBoundary b (min a bb) = true ∧
        isCharBoundary b (max a bb) = true
    · have hmnl : min a bb ≤ b.length := isCharBoundary_true_le b _ hg.2.1
      have hmxl : max a bb ≤ b.length := isCharBoundary_true_le b _ hg.2.2
      have hslice : sliceBytes b (min a bb) (max a bb) =
          some ((b.drop (min a bb)).take (max a bb - min a bb)) := by
        unfold sliceBytes
        rw [if_pos hg]
      unfold DeleteRange_new at h
      dsimp only at h
      rw [hslice] at h
      simp only [Option.bind_eq_bind, Option.some_bind'] at h
      have happ : (Command.deleteRange (a, bb)
          ((b.drop (min a bb)).take (max a bb - min a bb))).apply s.cursor b =
          some (min a bb, b.take (min a bb) ++ b.drop (max a bb)) := by
        unfold Command.apply
        dsimp only
        unfold replaceRange
        rw [if_pos hg]
        rw [Option.bind_eq_bind, Option.some_bind']
      rw [happ] at h
      simp only [Option.bind_eq_bind, Option.some_bind', Option.some.injEq,
        Prod.mk.injEq] at h
      obtain ⟨h1, h2⟩ := h
      subst h1
      subst h2
      refine ⟨validUtf8B_append _ _
        (validUtf8B_take_of_boundary _ b hv hg.2.1)
        (validUtf8B_drop_of_boundary _ b hv hg.2.2),
        Or.inr ⟨(a, bb), (b.drop (min a bb)).take (max a bb - min a bb), rfl, ?_⟩⟩
      intro cur
      unfold Command.unapply
      dsimp only
      have hins : stringInsert (b.take (min a bb) ++ b.drop (max a bb)) (min a bb)
          ((b.drop (min a bb)).take (max a bb - min a bb)) = some b := by
        unfold stringInsert
        rw [if_pos (boundary_take_append_of_boundary b (min a bb) (max a bb) hmnl
          hg.1 hg.2.2)]
        rw [List.take_left' (take_len_eq b (min a bb) hmnl),
          List.drop_left' (take_len_eq b (min a bb) hmnl),
          show b.drop (max a bb) = (b.drop (min a bb)).drop (max a bb - min a bb) from by
            rw [List.drop_drop, Nat.add_sub_cancel' hg.1],
          List.append_assoc, List.take_append_drop, List.take_append_drop]
      rw [hins]
    · have hslice : sliceBytes b (min a bb) (max a bb) = none := by
        unfold sliceBytes
        rw [if_neg hg]
      unfold DeleteRange_new at h
      dsimp only at h
      rw [hslice] at h
      simp at h

/-- One operation preserves UTF-8 validity and either leaves the undo stack
and buffer alone (only possible for a delete) or pushes one command whose
`unapply` restores the previous buffer; an insert records the pre-operation
cursor. -/
theorem applyOp_step (op : Op) (s : EditboxState) (b : Buffer) (s1 : EditboxState)
    (b1 : Buffer) (hwf : opWF op = true) (hv : validUtf8B b = true)
    (h : applyOp op s b = some (s1, b1)) :
    validUtf8B b1 = true ∧
    ((s1.undo_stack = s.undo_stack ∧ b1 = b ∧ isInsertOp op = false) ∨
      ∃ cmd, s1.undo_stack = cmd :: s.undo_stack ∧
        (∀ cur, cmd.unapply cur b1 = some (unapplyCursor cmd, b)) ∧
        (isInsertOp op = true → unapplyCursor cmd = s.cursor)) := by
  cases op with
  | insertChar ch =>
    obtain ⟨hok, hst, hun⟩ := applyOp_step_insertChar ch s b s1 b1 hwf hv h
    exact ⟨hok, Or.inr ⟨Command.insertCharacter ch s.cursor, hst, hun, fun _ => rfl⟩⟩
  | insertStr d =>
    obtain ⟨hok, hst, hun⟩ := applyOp_step_insertStr d s b s1 b1 hwf hv h
    exact ⟨hok, Or.inr ⟨Command.insertString d s.cursor, hst, hun, fun _ => rfl⟩⟩
  | deleteSelected =>
    obtain ⟨hok, hstep⟩ := applyOp_step_deleteSelected s b s1 b1 hv h
    refine ⟨hok, ?_⟩
    rcases hstep with ⟨hst, hbb⟩ | ⟨r, d, hst, hun⟩
    · exact Or.inl ⟨hst, hbb, rfl⟩
    · exact Or.inr ⟨Command.deleteRange r d, hst, hun, fun hx => absurd hx (by decide)⟩
  | deleteNext =>
    obtain ⟨hok, hstep⟩ := applyOp_step_deleteNext s b s1 b1 hv h
    refine ⟨hok, ?_⟩
    rcases hstep with ⟨hst, hbb⟩ | ⟨c0, hst, hun⟩
    · exact Or.inl ⟨hst, hbb, rfl⟩
    · exact Or.inr ⟨Command.deleteCharacter c0 s.cursor, hst, hun,
        fun hx => absurd hx (by decide)⟩
  | deleteCurrent =>
    obtain ⟨hok, hstep⟩ := applyOp_step_deleteCurrent s b s1 b1 hv h
    refine ⟨hok, ?_⟩
    rcases hstep with ⟨hst, hbb⟩ | ⟨c0, c1, hst, hun⟩
    · exact Or.inl ⟨hst, hbb, rfl⟩
    · exact Or.inr ⟨Command.deleteCharacter c0 c1, hst, hun, fun hx => absurd hx (by decide)⟩

/-- A successful well-formed operation sequence keeps the buffer valid and
leaves on the undo stack a block of commands that unwinds the final buffer
back to the initial one; if every operation is an insert, the unwinding also
lands on the initial cursor. -/
theorem applyOps_unwinds :
    ∀ (ops : List Op) (s : EditboxState) (b : Buffer) (s1 : EditboxState) (b1 : Buffer),
      ops.all opWF = true → validUtf8B b = true → applyOps ops s b = some (s1, b1) →
      validUtf8B b1 = true ∧
      ∃ cmds cOut, s1.undo_stack = cmds ++ s.undo_stack ∧ cmds.length ≤ ops.length ∧
        Unwinds cmds s1.cursor b1 cOut b ∧
        (ops.all isInsertOp = true → cOut = s.cursor) := by
  intro ops
  induction ops with
  | nil =>
    intro s b s1 b1 hwf hv h
    simp only [applyOps, Option.some.injEq, Prod.mk.injEq] at h
    obtain ⟨h1, h2⟩ := h
    subst h1
    subst h2
    exact ⟨hv, [], _, by simp, by simp, Unwinds.nil _ _, fun _ => rfl⟩
  | cons op ops ih =>
    intro s b s1 b1 hwf hv h
    simp only [List.all_cons, Bool.and_eq_true] at hwf
    unfold applyOps at h
    match hmid : applyOp op s b with
    | none =>
      rw [hmid] at h
      simp at h
    | some (sm, bm) =>
      rw [hmid] at h
      simp only [Option.bind_eq_bind, Option.some_bind'] at h
      obtain ⟨hvm, hstep⟩ := applyOp_step op s b sm bm hwf.1 hv hmid
      obtain ⟨hv1, cmds, cOut, hstack, hlen, hu, hins⟩ := ih sm bm s1 b1 hwf.2 hvm h
      refine ⟨hv1, ?_⟩
      rcases hstep with ⟨hst, hbb, hnoins⟩ | ⟨cmd, hst, hun, hinscur⟩
      · subst hbb
        refine ⟨cmds, cOut, by rw [hstack, hst], by simp only [List.length_cons]; omega,
          hu, ?_⟩
        intro hall
        simp only [List.all_cons, Bool.and_eq_true] at hall
        rw [hall.1] at hnoins
        exact absurd hnoins (by simp)
      · refine ⟨cmds ++ [cmd], unapplyCursor cmd, ?_, ?_, Unwinds_append_one hu hun, ?_⟩
        · rw [hstack, hst, List.append_assoc, List.singleton_append]
        · simp only [List.length_append, List.length_cons, List.length_nil]
          omega
        · intro hall
          simp only [List.all_cons, Bool.and_eq_true] at hall
          exact hinscur hall.1

/-- Undoing at least as many times as there are commands on the stack unwinds
them all (extra undos are no-ops on the empty stack). -/
theorem undoN_unwinds :
    ∀ {cmds : List Command} {cIn : Nat} {b1 b0 : Buffer} {cOut : Nat},
      Unwinds cmds cIn b1 cOut b0 →
      ∀ (s : EditboxState) (n : Nat), s.undo_stack = cmds → s.cursor = cIn →
        cmds.length ≤ n →
        ∃ s2, undoN n s b1 = some (s2, b0) ∧ s2.cursor = cOut ∧ s2.undo_stack = [] := by
  intro cmds cIn b1 b0 cOut hu
  induction hu with
  | nil c b =>
    intro s n hstack hcur hlen
    exact ⟨s, undoN_empty n s b hstack, hcur, hstack⟩
  | @cons cmd cs cIn2 bCur bMid bOut cOut2 hstep hrest ih =>
    intro s n hstack hcur hlen
    match n with
    | 0 => simp at hlen
    | n + 1 =>
      have hpop : ∃ s3, undo s bCur = some (s3, bMid) ∧
          s3.cursor = unapplyCursor cmd ∧ s3.undo_stack = cs := by
        unfold undo
        rw [hstack]
        dsimp only
        rw [hstep s.cursor]
        rw [Option.bind_eq_bind, Option.some_bind']
        exact ⟨_, rfl, rfl, rfl⟩
      obtain ⟨s3, hundo, hc3, hs3⟩ := hpop
      obtain ⟨s2, h2, hc2, hs2⟩ := ih s3 n hs3 hc3
        (by simp only [List.length_cons] at hlen; omega)
      refine ⟨s2, ?_, hc2, hs2⟩
      unfold undoN
      rw [hundo]
      rw [Option.bind_eq_bind, Option.some_bind']
      exact h2

/-- C1 counterexample: a forward delete of "a" in "ab" at cursor 0 followed by
one undo restores the buffer but sets the cursor to 1, not the pre-delete 0
(`DeleteCharacter::unapply` sets the cursor to one past the deletion offset). -/
theorem C1_undo_cursor_counterexample :
    ((applyOps [Op.deleteNext] (stateAt 0) [97, 98]).bind
        (fun p => undoN 1 p.1 p.2)).map (fun p => (p.1.cursor, p.2)) =
      some (1, [97, 98]) ∧ (stateAt 0).cursor ≠ 1 := by decide

/-- C1 (amended): starting from an empty undo stack, a successful sequence of
well-formed insert/delete operations on a valid UTF-8 buffer is undone by one
`undo` per operation: the pushed commands unwind in reverse order, the buffer
returns exactly to its pre-sequence value, and when every operation is an
insert the cursor also returns to its pre-sequence value (a character delete's
undo instead lands one past its recorded deletion offset and a range delete's
undo at the range minimum). -/
theorem C1_undo_restores_buffer (ops : List Op) (s0 : EditboxState) (b0 : Buffer)
    (s1 : EditboxState) (b1 : Buffer) (hwf : ops.all opWF = true)
    (hv : validUtf8B b0 = true) (hstk : s0.undo_stack = [])
    (h : applyOps ops s0 b0 = some (s1, b1)) :
    ∃ s2, undoN ops.length s1 b1 = some (s2, b0) ∧ s2.undo_stack = [] ∧
      (ops.all isInsertOp = true → s2.cursor = s0.cursor) := by
  obtain ⟨-, cmds, cOut, hstack, hlen, hu, hins⟩ :=
    applyOps_unwinds ops s0 b0 s1 b1 hwf hv h
  rw [hstk, List.append_nil] at hstack
  obtain ⟨s2, h2, hcur, hemp⟩ := undoN_unwinds hu s1 ops.length hstack rfl hlen
  exact ⟨s2, h2, hemp, fun hall => by rw [hcur, hins hall]⟩

/-- Witness for the amended C1 at the one-insert sequence "a" into the empty
buffer. -/
theorem C1_undo_restores_buffer_witness :
    ([Op.insertChar 97].all opWF = true ∧ validUtf8B [] = true ∧
      (stateAt 0).undo_stack = [] ∧
      applyOps [Op.insertChar 97] (stateAt 0) [] =
        some (⟨1, ClickState.none, 0, 0, 0, 0, none,
          [Command.insertCharacter 97 0], []⟩, [97])) ∧
    ∃ s2, undoN [Op.insertChar 97].length
        ⟨1, ClickState.none, 0, 0, 0, 0, none, [Command.insertCharacter 97 0], []⟩
        [97] = some (s2, []) ∧ s2.undo_stack = [] ∧
      ([Op.insertChar 97].all isInsertOp = true → s2.cursor = (stateAt 0).cursor) :=
  ⟨⟨rfl, rfl, rfl, rfl⟩,
    C1_undo_restores_buffer [Op.insertChar 97] (stateAt 0) []
      ⟨1, ClickState.none, 0, 0, 0, 0, none, [Command.insertCharacter 97 0], []⟩ [97]
      rfl rfl rfl rfl⟩

end TextEditor